import Mathlib

/-!
# create_nixipfs.go : upload / cache / publish pipeline

A shallow embedding of `src/create_nixipfs.go` (`AddToIPFS`, `AddDirToIPFS`,
`addBinaryCache`, `addNixosRelease`) and theorems about it.

* Go strings are lists of characters, Go `map[string]string` values are functions
  `GoString → Option GoString` read with the zero value `""` for a missing key.
* The IPFS shell (`go-ipfs-api`) and `path/filepath` are not part of the source file and
  are taken as parameters (`Deps`): the MFS operations form a state machine over an
  arbitrary backend state `β`, content-add is a function of the bytes it is given.
* `log.Fatal` ends the process: every operation returns either the world it reached or a
  `Fatal` reason together with the world at the moment of death.
* Every backend call the main goroutine makes, every upload task it launches and every
  value it receives from the channel is appended to `World.log`.
-/

namespace NixIPFS

/-- Go `string`. -/
abbrev GoString := List Char

/-- Go `strings.Contains(s, substr)`: `substr` occurs in `s` at some offset. -/
def Contains (s substr : GoString) : Bool :=
  s.tails.any (fun t => substr.isPrefixOf t)

/-- Go `map[string]string`. -/
abbrev StringMap := GoString → Option GoString

/-- The map expression `make(map[string]string)`. -/
def StringMap.make : StringMap := fun _ => none

/-- The index expression `m[k]`: the zero value `""` when `k` is missing. -/
def StringMap.index (m : StringMap) (k : GoString) : GoString := (m k).getD []

/-- The assignment `m[k] = v`. -/
def StringMap.assign (m : StringMap) (k v : GoString) : StringMap :=
  fun x => if x = k then some v else m x

/-- Source lines 41-43: `type Pair struct { a, b string }`. -/
structure Pair where
  a : GoString
  b : GoString
  deriving DecidableEq, Repr

/-- What the main goroutine does that is visible from outside, in program order. -/
inductive Event where
  /-- The statement `go AddToIPFS(d0, sh, hashCache[f], dir, f)`: one upload task, which
  makes the one `sh.AddWithOpts` call for the file `f` of `dir`. -/
  | upload (dir file : GoString)
  /-- The receive `x := <- d0`. -/
  | recv (x : Pair)
  | FilesMkdir (path : GoString) (parents : Bool)
  | FilesCp (src dst : GoString) (flag : Bool)
  | FilesFlush (path : GoString)
  | FilesStat (path : GoString)
  deriving DecidableEq, Repr

/-- The place of a `log.Fatal` call. -/
inductive Fatal where
  | ReadDir
  | Open
  | AddWithOpts
  | shouldNotHappen
  | FilesCp
  | FilesMkdir
  | ReadFile
  | FilesStat
  | Create
  deriving DecidableEq, Repr

/-- What a local path holds, as far as `os.Stat`, `os.Open` and `ioutil.ReadFile` tell. -/
inductive Node where
  /-- Nothing there: `os.Stat` answers with an `IsNotExist` error. -/
  | missing
  /-- A readable file and its bytes. -/
  | file (content : GoString)
  /-- Anything else: the path exists (or `os.Stat` fails otherwise) and cannot be read. -/
  | other
  deriving DecidableEq, Repr

/-- The external collaborators of the program: the methods of `shell.Shell` it calls and
the two `path/filepath` functions it uses. `true` stands for a `nil` error, `none` for
a non-`nil` one. -/
structure Deps (β : Type) where
  AddWithOpts : GoString → Bool → Bool → Option GoString
  FilesMkdir : GoString → Bool → β → Bool × β
  FilesCp : GoString → GoString → Bool → β → Bool × β
  FilesFlush : GoString → β → β
  FilesStat : GoString → β → Option GoString × β
  Join : GoString → GoString → GoString
  Dir : GoString → GoString

/-- The state the program runs in: the backend behind `sh`, the global `hashCache`, the
local file system and the log of events. -/
structure World (β : Type) where
  ipfs : β
  hashCache : StringMap
  ReadDir : GoString → Option (List GoString)
  node : GoString → Node
  canCreate : GoString → Bool
  log : List Event

/-- Result of a run: the world reached, or the `log.Fatal` that ended the process. -/
abbrev Run (β : Type) := Except (Fatal × World β) (World β)

/-- The world in which a run ended, whichever way it ended. -/
def Run.world {β : Type} : Run β → World β
  | .ok w => w
  | .error e => e.2

/-- Source line 37: `validReleasePaths`. -/
def validReleasePaths : List GoString :=
  ["binary-cache-url".toList, "git-revision".toList, "nixexprs.tar.xz".toList, ".ova".toList,
   ".iso".toList, "src-url".toList, "store-paths.xz".toList]

/-- Source line 38: `hashableReleaseExtensions`. -/
def hashableReleaseExtensions : List GoString := [".iso".toList, ".ova".toList]

/-- Source lines 45-56, `AddToIPFS`: the value the task sends on the channel, or the
`log.Fatal` it dies of. The source does not use its parameters `s` and `h`. -/
def AddToIPFS {β : Type} (D : Deps β) (w : World β) (_h : GoString) (narDir file : GoString) :
    Except Fatal Pair :=
  match w.node (D.Join narDir file) with
  | .file fr =>
    match D.AddWithOpts fr false true with
    | some hash => .ok ⟨file, hash⟩
    | none => .error Fatal.AddWithOpts
  | _ => .error Fatal.Open

/-- Inner loop of source lines 68-72: `f` is appended once for every `extension` that its
name contains. -/
def filterExtensions (f : GoString) : List GoString → List GoString
  | [] => []
  | extension :: rest =>
    if Contains f extension then f :: filterExtensions f rest else filterExtensions f rest

/-- Source lines 67-73: the slice `filteredFiles` built from the directory listing. -/
def filteredFiles : List GoString → List GoString → List GoString
  | [], _ => []
  | f :: files, extensions => filterExtensions f extensions ++ filteredFiles files extensions

/-- Source lines 81-86: the flag `cache` after the loop over `cached_extensions`. -/
def cacheFlag (cached_extensions : List GoString) (name : GoString) : Bool :=
  cached_extensions.foldl (fun cache extension => if Contains name extension then true else cache)
    false

/-- Body of the fan-in loop, source lines 80-91, on the pair `(hashCache, localCache)`. -/
def collectStep (cached_extensions : List GoString) (st : StringMap × StringMap) (x : Pair) :
    StringMap × StringMap :=
  if cacheFlag cached_extensions x.a then (st.1.assign x.a x.b, st.2)
  else (st.1, st.2.assign x.a x.b)

/-- The fan-in loop, source lines 79-92, over the values received in order. -/
def collect (cached_extensions : List GoString) (received : List Pair)
    (st : StringMap × StringMap) : StringMap × StringMap :=
  received.foldl (collectStep cached_extensions) st

/-- Source lines 95-98: the hash resolved for `f`. -/
def resolve (hashCache localCache : StringMap) (f : GoString) : GoString :=
  let h := hashCache.index f
  if h = [] then localCache.index f else h

/-- The call `err := sh.FilesCp(src, dst, flag); if err != nil { log.Fatal(err) }`. -/
def FilesCp {β : Type} (D : Deps β) (src dst : GoString) (flag : Bool) (w : World β) : Run β :=
  let r := D.FilesCp src dst flag w.ipfs
  let w1 := { w with ipfs := r.2, log := w.log ++ [Event.FilesCp src dst flag] }
  if r.1 then .ok w1 else .error (Fatal.FilesCp, w1)

/-- The call `err := sh.FilesMkdir(path, parents); if err != nil { log.Fatal(err) }`. -/
def FilesMkdir {β : Type} (D : Deps β) (path : GoString) (parents : Bool) (w : World β) :
    Run β :=
  let r := D.FilesMkdir path parents w.ipfs
  let w1 := { w with ipfs := r.2, log := w.log ++ [Event.FilesMkdir path parents] }
  if r.1 then .ok w1 else .error (Fatal.FilesMkdir, w1)

/-- The call `sh.FilesFlush(path)`, whose error the source drops. -/
def FilesFlush {β : Type} (D : Deps β) (path : GoString) (w : World β) : World β :=
  { w with ipfs := D.FilesFlush path w.ipfs, log := w.log ++ [Event.FilesFlush path] }

/-- The copy loop, source lines 94-106. -/
def copyLoop {β : Type} (D : Deps β) (mfsDir : GoString) (localCache : StringMap) :
    List GoString → World β → Run β
  | [], w => .ok w
  | f :: rest, w =>
    let h := resolve w.hashCache localCache f
    if h = [] then .error (Fatal.shouldNotHappen, w)
    else
      match FilesCp D ("/ipfs/".toList ++ h) (D.Join mfsDir f) false w with
      | .ok w1 => copyLoop D mfsDir localCache rest w1
      | .error e => .error e

/-- The values the upload tasks of source lines 75-77 send, in launch order, or the first
`log.Fatal` among them. -/
def sends {β : Type} (D : Deps β) (w : World β) (dir : GoString) :
    List GoString → Except Fatal (List Pair)
  | [] => .ok []
  | f :: rest =>
    match AddToIPFS D w (w.hashCache.index f) dir f with
    | .error e => .error e
    | .ok x =>
      match sends D w dir rest with
      | .error e => .error e
      | .ok xs => .ok (x :: xs)

/-- Source lines 58-107, `AddDirToIPFS`. The channel `d0` delivers the values sent by the
upload tasks in the order `sched` puts them in; a scheduler is any function that only
reorders its argument. A failing task ends the process before the fan-in loop is over,
hence before any copy; the world reported for that death is the one in which the tasks
were launched (what the loop had received by then died with the process). -/
def AddDirToIPFS {β : Type} (D : Deps β) (sched : List Pair → List Pair)
    (dir mfsDir : GoString) (extensions cached_extensions : List GoString) (w : World β) :
    Run β :=
  match w.ReadDir dir with
  | none => .error (Fatal.ReadDir, w)
  | some files =>
    let filtered := filteredFiles files extensions
    let w1 := { w with log := w.log ++ filtered.map (Event.upload dir) }
    match sends D w dir filtered with
    | .error e => .error (e, w1)
    | .ok sent =>
      let received := (sched sent).take filtered.length
      let st := collect cached_extensions received (w.hashCache, StringMap.make)
      let w2 := { w1 with hashCache := st.1, log := w1.log ++ received.map Event.recv }
      copyLoop D mfsDir st.2 filtered w2

/-- Source lines 115-134, `addBinaryCache`. Its parameter `hashCache` is the global map. -/
def addBinaryCache {β : Type} (D : Deps β) (sched : List Pair → List Pair)
    (localDir mfsDir : GoString) (w : World β) : Run β :=
  let binaryCacheDir := D.Join localDir "binary_cache".toList
  let narDir := D.Join binaryCacheDir "nar".toList
  let mfsBinaryCacheDir := D.Join mfsDir "binary_cache".toList
  let mfsNarDir := D.Join mfsBinaryCacheDir "nar".toList
  match FilesMkdir D mfsBinaryCacheDir false w with
  | .error e => .error e
  | .ok w1 =>
    match FilesMkdir D mfsNarDir false w1 with
    | .error e => .error e
    | .ok w2 =>
      match AddDirToIPFS D sched binaryCacheDir mfsBinaryCacheDir
          [".narinfo".toList] [".narinfo".toList] w2 with
      | .error e => .error e
      | .ok w3 =>
        match AddDirToIPFS D sched narDir mfsNarDir
            [".nar".toList, "nar-cache-info".toList] [".nar".toList] w3 with
        | .error e => .error e
        | .ok w4 => .ok (FilesFlush D mfsBinaryCacheDir w4)

/-- The call `res, err := sh.FilesStat(path); if err != nil { log.Fatal(err) }`, giving
`res.Hash`. -/
def FilesStat {β : Type} (D : Deps β) (path : GoString) (w : World β) :
    Except (Fatal × World β) (GoString × World β) :=
  let r := D.FilesStat path w.ipfs
  let w1 := { w with ipfs := r.2, log := w.log ++ [Event.FilesStat path] }
  match r.1 with
  | some hash => .ok (hash, w1)
  | none => .error (Fatal.FilesStat, w1)

/-- Source lines 169-175: `os.Create(hashFile)` and `f.WriteString(hash)`. -/
def writeFile {β : Type} (path content : GoString) (w : World β) : Run β :=
  if w.canCreate path then
    .ok { w with node := fun p => if p = path then Node.file content else w.node p }
  else .error (Fatal.Create, w)

/-- Source lines 136-177, `addNixosRelease`. -/
def addNixosRelease {β : Type} (D : Deps β) (sched : List Pair → List Pair)
    (localDir mfsDir : GoString) (w : World β) : Run β :=
  let hashFile := D.Join localDir "ipfs_hash".toList
  match w.node hashFile with
  | .missing =>
    match FilesMkdir D mfsDir true w with
    | .error e => .error e
    | .ok w1 =>
      match AddDirToIPFS D sched localDir mfsDir validReleasePaths hashableReleaseExtensions
          w1 with
      | .error e => .error e
      | .ok w2 =>
        match addBinaryCache D sched localDir mfsDir w2 with
        | .error e => .error e
        | .ok w3 =>
          match FilesStat D mfsDir (FilesFlush D mfsDir w3) with
          | .error e => .error e
          | .ok (hash, w4) => writeFile hashFile hash w4
  | .file hash =>
    match FilesMkdir D (D.Dir mfsDir) true w with
    | .error e => .error e
    | .ok w1 =>
      match FilesCp D ("/ipfs/".toList ++ hash) mfsDir false w1 with
      | .error e => .error e
      | .ok w2 => .ok (FilesFlush D mfsDir w2)
  | .other => .error (Fatal.ReadFile, w)


/-! ## Auxiliary notions used to state the theorems -/

/-- The hash the upload task of `f` sends (`""` when the task dies instead). -/
def uploadHash {β : Type} (D : Deps β) (w : World β) (dir f : GoString) : GoString :=
  match AddToIPFS D w (w.hashCache.index f) dir f with
  | .ok x => x.b
  | .error _ => []

/-- The `sh.FilesCp` call of source line 102 for the file `f`. -/
def cpEvent {β : Type} (D : Deps β) (mfsDir : GoString) (hashCache localCache : StringMap)
    (f : GoString) : Event :=
  Event.FilesCp ("/ipfs/".toList ++ resolve hashCache localCache f) (D.Join mfsDir f) false

/-- The `hashCache` once the fan-in loop has received the results of all of `filtered`. -/
def cacheAfter {β : Type} (D : Deps β) (w : World β) (dir : GoString)
    (cached_extensions filtered : List GoString) : StringMap :=
  fun k => if cacheFlag cached_extensions k = true ∧ k ∈ filtered
    then some (uploadHash D w dir k) else w.hashCache k

/-- The `localCache` once the fan-in loop has received the results of all of `filtered`. -/
def localAfter {β : Type} (D : Deps β) (w : World β) (dir : GoString)
    (cached_extensions filtered : List GoString) : StringMap :=
  fun k => if cacheFlag cached_extensions k = false ∧ k ∈ filtered
    then some (uploadHash D w dir k) else none

/-- A scheduler only reorders the values sent on the channel. -/
def Fair (sched : List Pair → List Pair) : Prop := ∀ l, (sched l).Perm l

/-- The world with `pre` put in front of its log. -/
def World.prepend {β : Type} (pre : List Event) (w : World β) : World β :=
  { w with log := pre ++ w.log }

/-- The run with `pre` put in front of its log. -/
def Run.prepend {β : Type} (pre : List Event) : Run β → Run β
  | .ok w => .ok (w.prepend pre)
  | .error e => .error (e.1, e.2.prepend pre)

/-- The run ended without `log.Fatal`. -/
def Run.isOk {β : Type} : Run β → Bool
  | .ok _ => true
  | .error _ => false

/-- The `log.Fatal` that ended the run, if any. -/
def Run.fatal {β : Type} : Run β → Option Fatal
  | .ok _ => none
  | .error e => some e.1

/-! ## A test double of the backend and of the local file system -/

/-- State of the test backend: the MFS entries made by copy-by-hash, newest first, each
with the hash it was copied from. -/
abbrev Mfs := List (GoString × GoString)

/-- Does `dst` already hold an entry? -/
def Mfs.has (b : Mfs) (dst : GoString) : Bool := b.any (fun e => e.1 = dst)

/-- The hash under which the test backend reports `path`: the hash copied there, or for a
directory a hash made of the hashes of everything copied below it. -/
def Mfs.stat (b : Mfs) (path : GoString) : GoString :=
  match b.lookup path with
  | some h => h
  | none =>
    "QmDir".toList ++
      ((b.filter (fun e => (path ++ ['/']).isPrefixOf e.1)).map (fun e => e.2)).flatten

/-- The test backend: content-add hashes the bytes to `Qm` followed by the bytes, a copy
onto a path that already has an entry fails, everything else succeeds. -/
def testDeps : Deps Mfs where
  AddWithOpts := fun content _ _ => some ("Qm".toList ++ content)
  FilesMkdir := fun _ _ b => (true, b)
  FilesCp := fun src dst _ b =>
    if b.has dst then (false, b) else (true, (dst, src.drop 6) :: b)
  FilesFlush := fun _ b => b
  FilesStat := fun path b => (some (b.stat path), b)
  Join := fun a b => a ++ '/' :: b
  Dir := fun p => ((p.reverse.dropWhile (fun c => c ≠ '/')).drop 1).reverse

/-- A world over the test backend: empty MFS, empty log, local directories and files as
given (a path that is not listed in `files` is missing). -/
def testWorld (hashCache : List (GoString × GoString))
    (dirs : List (GoString × List GoString)) (files : List (GoString × GoString)) :
    World Mfs where
  ipfs := []
  hashCache := fun k => hashCache.lookup k
  ReadDir := fun d => dirs.lookup d
  node := fun p =>
    match files.lookup p with
    | some c => Node.file c
    | none => Node.missing
  canCreate := fun _ => true
  log := []

/-- The scheduler that delivers the results in launch order. -/
def inOrder : List Pair → List Pair := fun l => l

/-- The scheduler that delivers the results in the reverse of launch order. -/
def reversed : List Pair → List Pair := fun l => l.reverse

/-- A release directory `rel` with two release files, a file the allow-list does not
select, and a nested binary cache; the hash cache loaded at start already has entries for
both release files. -/
def releaseWorld : World Mfs :=
  testWorld
    [("git-revision".toList, "QmOld".toList), ("nixos.iso".toList, "QmOldIso".toList)]
    [("rel".toList, ["git-revision".toList, "nixos.iso".toList, "readme".toList]),
     ("rel/binary_cache".toList, ["abc.narinfo".toList]),
     ("rel/binary_cache/nar".toList, ["abc.nar".toList, "nar-cache-info".toList])]
    [("rel/git-revision".toList, "rev2".toList), ("rel/nixos.iso".toList, "img2".toList),
     ("rel/binary_cache/abc.narinfo".toList, "info".toList),
     ("rel/binary_cache/nar/abc.nar".toList, "blob".toList),
     ("rel/binary_cache/nar/nar-cache-info".toList, "idx".toList)]

/-- The same release directory at a first run: nothing in the hash cache yet. -/
def freshWorld : World Mfs := { releaseWorld with hashCache := StringMap.make }

/-- A release directory whose only file has a name containing two entries of
`validReleasePaths` (`.iso` and `.ova`). -/
def doubleMatchWorld : World Mfs :=
  testWorld [] [("rel".toList, ["nixos.iso.ova".toList])]
    [("rel/nixos.iso.ova".toList, "img".toList)]

/-- A release directory at a later run: `git-revision` now holds `rev2`, and the hash cache
loaded at start has an entry `QmOld` under that name. -/
def staleWorld : World Mfs :=
  testWorld [("git-revision".toList, "QmOld".toList)] [("rel".toList, ["git-revision".toList])]
    [("rel/git-revision".toList, "rev2".toList)]

/-- A second run over an unchanged image: the hash cache already maps `nixos.iso` to the
hash `Qmimg` of its bytes `img`. -/
def secondRunWorld : World Mfs :=
  testWorld [("nixos.iso".toList, "Qmimg".toList)] [("rel".toList, ["nixos.iso".toList])]
    [("rel/nixos.iso".toList, "img".toList)]

/-- A second run over an image whose bytes changed to `img2` since the hash cache recorded
`Qmimg` for its name. -/
def changedWorld : World Mfs :=
  testWorld [("nixos.iso".toList, "Qmimg".toList)] [("rel".toList, ["nixos.iso".toList])]
    [("rel/nixos.iso".toList, "img2".toList)]

/-- A binary cache whose `nar` directory holds one index file, `store.nar-cache-info`: its
name contains `nar-cache-info` and also `.nar`. -/
def cacheInfoWorld : World Mfs :=
  testWorld [] [("cache/binary_cache".toList, []),
      ("cache/binary_cache/nar".toList, ["store.nar-cache-info".toList])]
    [("cache/binary_cache/nar/store.nar-cache-info".toList, "idx".toList)]

/-- The test backend, except that a copy onto a path that already has an entry replaces
the entry instead of failing. -/
def lenientDeps : Deps Mfs :=
  { testDeps with FilesCp := fun src dst _ b => (true, (dst, src.drop 6) :: b) }

/-- A release directory that was published before: its marker file `ipfs_hash` holds the
hash `QmTree`. -/
def publishedWorld : World Mfs :=
  testWorld [] [("rel".toList, ["git-revision".toList, "ipfs_hash".toList])]
    [("rel/git-revision".toList, "rev2".toList), ("rel/ipfs_hash".toList, "QmTree".toList)]

theorem Contains_iff_occurs (s substr : GoString) : Contains s substr = true ↔ substr <:+: s := by
  simp only [Contains, List.any_eq_true, List.mem_tails, List.infix_iff_prefix_suffix]
  constructor
  · rintro ⟨t, ht, hp⟩
    exact ⟨t, by simpa using hp, ht⟩
  · rintro ⟨t, hp, ht⟩
    exact ⟨t, ht, by simpa using hp⟩

theorem mem_filterExtensions (f x : GoString) (extensions : List GoString) :
    x ∈ filterExtensions f extensions ↔ x = f ∧ ∃ e ∈ extensions, Contains f e = true := by
  induction extensions with
  | nil => simp [filterExtensions]
  | cons e rest ih =>
    cases h : Contains f e
    · simp [filterExtensions, h, ih]
    · simp only [filterExtensions, h, if_true, List.mem_cons, ih]
      constructor
      · rintro (rfl | ⟨rfl, _⟩) <;> exact ⟨rfl, e, Or.inl rfl, h⟩
      · rintro ⟨rfl, _⟩; exact Or.inl rfl

theorem mem_filteredFiles (x : GoString) (files extensions : List GoString) :
    x ∈ filteredFiles files extensions ↔ x ∈ files ∧ ∃ e ∈ extensions, Contains x e = true := by
  induction files with
  | nil => simp [filteredFiles]
  | cons f rest ih =>
    simp only [filteredFiles, List.mem_append, mem_filterExtensions, ih, List.mem_cons]
    constructor
    · rintro (⟨rfl, h⟩ | ⟨hx, h⟩)
      · exact ⟨Or.inl rfl, h⟩
      · exact ⟨Or.inr hx, h⟩
    · rintro ⟨rfl | hx, h⟩
      · exact Or.inl ⟨rfl, h⟩
      · exact Or.inr ⟨hx, h⟩

theorem cacheFlag_foldl_true (name : GoString) (l : List GoString) :
    l.foldl (fun cache extension => if Contains name extension then true else cache) true
      = true := by
  induction l with
  | nil => rfl
  | cons e rest ih =>
    simp only [List.foldl]
    cases Contains name e <;> simpa using ih

theorem cacheFlag_iff (cached_extensions : List GoString) (name : GoString) :
    cacheFlag cached_extensions name = true ↔
      ∃ e ∈ cached_extensions, Contains name e = true := by
  unfold cacheFlag
  induction cached_extensions with
  | nil => simp
  | cons e rest ih =>
    cases h : Contains name e
    · simp only [List.foldl, h, Bool.false_eq_true, if_false, ih, List.mem_cons]
      constructor
      · rintro ⟨e', he', hc⟩; exact ⟨e', Or.inr he', hc⟩
      · rintro ⟨e', he' | he', hc⟩
        · subst he'; rw [h] at hc; exact absurd hc (by decide)
        · exact ⟨e', he', hc⟩
    · simp only [List.foldl, h, if_true, cacheFlag_foldl_true, true_iff]
      exact ⟨e, List.mem_cons_self _ _, h⟩

/-! ## The upload tasks -/

theorem AddToIPFS_ok {β : Type} (D : Deps β) (w : World β) (h dir f : GoString) (x : Pair)
    (hx : AddToIPFS D w h dir f = .ok x) :
    x.a = f ∧ ∃ fr, w.node (D.Join dir f) = Node.file fr ∧
      D.AddWithOpts fr false true = some x.b := by
  unfold AddToIPFS at hx
  split at hx
  · rename_i fr hn
    split at hx
    · rename_i hash hadd
      cases hx
      exact ⟨rfl, fr, hn, hadd⟩
    · cases hx
  · cases hx

theorem sends_eq {β : Type} (D : Deps β) (w : World β) (dir : GoString) :
    ∀ (fs : List GoString) (sent : List Pair), sends D w dir fs = .ok sent →
      sent = fs.map (fun f => (⟨f, uploadHash D w dir f⟩ : Pair)) := by
  intro fs
  induction fs with
  | nil =>
    intro sent h
    simp only [sends] at h
    cases h
    rfl
  | cons f rest ih =>
    intro sent h
    simp only [sends] at h
    split at h
    · cases h
    · rename_i x hx
      split at h
      · cases h
      · rename_i xs hxs
        cases h
        have ha := (AddToIPFS_ok D w _ dir f x hx).1
        have hb : uploadHash D w dir f = x.b := by simp [uploadHash, hx]
        rw [List.map_cons, hb, ← ih xs hxs]
        cases x
        simp_all

theorem sends_map_a {β : Type} (D : Deps β) (w : World β) (dir : GoString)
    (fs : List GoString) (sent : List Pair) (h : sends D w dir fs = .ok sent) :
    sent.map Pair.a = fs := by
  rw [sends_eq D w dir fs sent h, List.map_map]
  exact List.map_id _

/-! ## The fan-in loop -/

theorem collect_fst (c : List GoString) (g : GoString → GoString) :
    ∀ (xs : List Pair) (st : StringMap × StringMap), (∀ x ∈ xs, x.b = g x.a) → ∀ k,
      (collect c xs st).1 k =
        if cacheFlag c k = true ∧ k ∈ xs.map Pair.a then some (g k) else st.1 k := by
  intro xs
  induction xs with
  | nil => intro st _ k; simp [collect]
  | cons x rest ih =>
    intro st hx k
    have hrest : ∀ y ∈ rest, y.b = g y.a := fun y hy => hx y (List.mem_cons_of_mem _ hy)
    have hxb : x.b = g x.a := hx x (List.mem_cons_self _ _)
    have := ih (collectStep c st x) hrest k
    simp only [collect, List.foldl_cons] at this ⊢
    rw [this]
    by_cases hk : cacheFlag c k = true ∧ k ∈ rest.map Pair.a
    · have : cacheFlag c k = true ∧ k ∈ (x :: rest).map Pair.a :=
        ⟨hk.1, by simp only [List.map_cons, List.mem_cons]; exact Or.inr hk.2⟩
      rw [if_pos hk, if_pos this]
    · rw [if_neg hk]
      by_cases hka : k = x.a
      · subst hka
        by_cases hc : cacheFlag c x.a = true
        · simp [collectStep, hc, StringMap.assign, hxb]
        · simp [collectStep, hc]
      · by_cases hc : cacheFlag c x.a = true
        · have hne : ¬ (cacheFlag c k = true ∧ k ∈ (x :: rest).map Pair.a) := by
            rintro ⟨h1, h2⟩
            simp only [List.map_cons, List.mem_cons] at h2
            rcases h2 with h2 | h2
            · exact hka h2
            · exact hk ⟨h1, h2⟩
          rw [if_neg hne]
          simp [collectStep, hc, StringMap.assign, hka]
        · have hne : ¬ (cacheFlag c k = true ∧ k ∈ (x :: rest).map Pair.a) := by
            rintro ⟨h1, h2⟩
            simp only [List.map_cons, List.mem_cons] at h2
            rcases h2 with h2 | h2
            · exact hka h2
            · exact hk ⟨h1, h2⟩
          rw [if_neg hne]
          simp [collectStep, hc]

theorem collect_snd (c : List GoString) (g : GoString → GoString) :
    ∀ (xs : List Pair) (st : StringMap × StringMap), (∀ x ∈ xs, x.b = g x.a) → ∀ k,
      (collect c xs st).2 k =
        if cacheFlag c k = false ∧ k ∈ xs.map Pair.a then some (g k) else st.2 k := by
  intro xs
  induction xs with
  | nil => intro st _ k; simp [collect]
  | cons x rest ih =>
    intro st hx k
    have hrest : ∀ y ∈ rest, y.b = g y.a := fun y hy => hx y (List.mem_cons_of_mem _ hy)
    have hxb : x.b = g x.a := hx x (List.mem_cons_self _ _)
    have := ih (collectStep c st x) hrest k
    simp only [collect, List.foldl_cons] at this ⊢
    rw [this]
    by_cases hk : cacheFlag c k = false ∧ k ∈ rest.map Pair.a
    · have : cacheFlag c k = false ∧ k ∈ (x :: rest).map Pair.a :=
        ⟨hk.1, by simp only [List.map_cons, List.mem_cons]; exact Or.inr hk.2⟩
      rw [if_pos hk, if_pos this]
    · rw [if_neg hk]
      have hne : k ≠ x.a → ¬ (cacheFlag c k = false ∧ k ∈ (x :: rest).map Pair.a) := by
        rintro hka ⟨h1, h2⟩
        simp only [List.map_cons, List.mem_cons] at h2
        rcases h2 with h2 | h2
        · exact hka h2
        · exact hk ⟨h1, h2⟩
      by_cases hka : k = x.a
      · subst hka
        cases hc : cacheFlag c x.a
        · simp [collectStep, hc, StringMap.assign, hxb]
        · simp [collectStep, hc]
      · rw [if_neg (hne hka)]
        cases hc : cacheFlag c x.a
        · simp [collectStep, hc, StringMap.assign, hka]
        · simp [collectStep, hc]

theorem collect_frame (c : List GoString) :
    ∀ (xs : List Pair) (st : StringMap × StringMap) (k : GoString), cacheFlag c k = false →
      (collect c xs st).1 k = st.1 k := by
  intro xs
  induction xs with
  | nil => intro st k _; rfl
  | cons x rest ih =>
    intro st k hk
    have := ih (collectStep c st x) k hk
    simp only [collect, List.foldl_cons] at this ⊢
    rw [this]
    cases hc : cacheFlag c x.a
    · simp [collectStep, hc]
    · have hne : k ≠ x.a := by rintro rfl; rw [hk] at hc; cases hc
      simp [collectStep, hc, StringMap.assign, hne]

/-! ## The copy loop -/

theorem FilesCp_prepend {β : Type} (D : Deps β) (src dst : GoString) (flag : Bool)
    (pre : List Event) (w : World β) :
    FilesCp D src dst flag (w.prepend pre) = (FilesCp D src dst flag w).prepend pre := by
  unfold FilesCp
  cases h : (D.FilesCp src dst flag w.ipfs).1 <;>
    simp [World.prepend, Run.prepend, h, List.append_assoc]

theorem copyLoop_prepend {β : Type} (D : Deps β) (mfsDir : GoString) (lc : StringMap)
    (pre : List Event) :
    ∀ (fs : List GoString) (w : World β),
      copyLoop D mfsDir lc fs (w.prepend pre) = (copyLoop D mfsDir lc fs w).prepend pre := by
  intro fs
  induction fs with
  | nil => intro w; rfl
  | cons f rest ih =>
    intro w
    simp only [copyLoop]
    have hhc : (w.prepend pre).hashCache = w.hashCache := rfl
    rw [hhc]
    by_cases hr : resolve w.hashCache lc f = []
    · simp [hr, Run.prepend]
    · simp only [hr, if_false]
      rw [FilesCp_prepend]
      cases hcp : FilesCp D ("/ipfs/".toList ++ resolve w.hashCache lc f) (D.Join mfsDir f)
        false w with
      | ok w1 => simp only [Run.prepend]; exact ih w1
      | error e => simp [Run.prepend]

theorem FilesCp_world {β : Type} (D : Deps β) (src dst : GoString) (flag : Bool)
    (w : World β) :
    (FilesCp D src dst flag w).world =
      { w with ipfs := (D.FilesCp src dst flag w.ipfs).2,
               log := w.log ++ [Event.FilesCp src dst flag] } := by
  unfold FilesCp
  cases h : (D.FilesCp src dst flag w.ipfs).1 <;> simp [Run.world, h]

theorem FilesCp_isOk {β : Type} (D : Deps β) (src dst : GoString) (flag : Bool)
    (w : World β) :
    (FilesCp D src dst flag w).isOk = (D.FilesCp src dst flag w.ipfs).1 := by
  unfold FilesCp
  cases h : (D.FilesCp src dst flag w.ipfs).1 <;> simp [Run.isOk, h]

theorem FilesCp_fatal {β : Type} (D : Deps β) (src dst : GoString) (flag : Bool)
    (w : World β) (e : Fatal × World β) (h : FilesCp D src dst flag w = .error e) :
    e.1 = Fatal.FilesCp := by
  unfold FilesCp at h
  dsimp only at h
  split at h
  · cases h
  · cases h; rfl

/-- What the copy loop does: it leaves `hashCache` and the local files alone, and it issues
the copies of the selected files in order, stopping only at a failing copy (which it has
issued) or at a file that resolves to the empty hash (for which it issues none). -/
theorem copyLoop_spec {β : Type} (D : Deps β) (mfsDir : GoString) (lc : StringMap) :
    ∀ (fs : List GoString) (w : World β),
      (copyLoop D mfsDir lc fs w).world.hashCache = w.hashCache ∧
      (copyLoop D mfsDir lc fs w).world.node = w.node ∧
      ∃ n, n ≤ fs.length ∧
        (copyLoop D mfsDir lc fs w).world.log =
          w.log ++ (fs.take n).map (cpEvent D mfsDir w.hashCache lc) ∧
        ((copyLoop D mfsDir lc fs w).isOk = true → n = fs.length) ∧
        ((copyLoop D mfsDir lc fs w).fatal = some Fatal.shouldNotHappen →
          ∃ f ∈ fs, resolve w.hashCache lc f = []) ∧
        ((copyLoop D mfsDir lc fs w).isOk = false →
          (copyLoop D mfsDir lc fs w).fatal = some Fatal.shouldNotHappen ∨
          (copyLoop D mfsDir lc fs w).fatal = some Fatal.FilesCp) := by
  intro fs
  induction fs with
  | nil =>
    intro w
    refine ⟨rfl, rfl, 0, le_refl _, by simp [copyLoop, Run.world], fun _ => rfl, ?_, ?_⟩
    · intro h; simp [copyLoop, Run.fatal] at h
    · intro h; simp [copyLoop, Run.isOk] at h
  | cons f rest ih =>
    intro w
    simp only [copyLoop]
    by_cases hr : resolve w.hashCache lc f = []
    · simp only [hr, if_true]
      refine ⟨rfl, rfl, 0, Nat.zero_le _, by simp [Run.world], ?_, ?_, ?_⟩
      · intro h; simp [Run.isOk] at h
      · intro _; exact ⟨f, List.mem_cons_self _ _, hr⟩
      · intro _; exact Or.inl rfl
    · simp only [hr, if_false]
      have hw := FilesCp_world D ("/ipfs/".toList ++ resolve w.hashCache lc f)
        (D.Join mfsDir f) false w
      cases hcp : FilesCp D ("/ipfs/".toList ++ resolve w.hashCache lc f) (D.Join mfsDir f)
        false w with
      | error e =>
        rw [hcp] at hw
        simp only [Run.world] at hw
        simp only [Run.world, Run.isOk, Run.fatal]
        refine ⟨by rw [hw], by rw [hw], 1, by simp, by simp [hw, cpEvent], by simp, ?_, ?_⟩
        · intro h
          have := FilesCp_fatal D _ _ _ w e hcp
          rw [this] at h
          cases h
        · intro _
          exact Or.inr (by rw [FilesCp_fatal D _ _ _ w e hcp])
      | ok w1 =>
        rw [hcp] at hw
        simp only [Run.world] at hw
        obtain ⟨h1, h2, n, hn, hlog, hok, hsnh, hfat⟩ := ih w1
        have hc1 : w1.hashCache = w.hashCache := by rw [hw]
        refine ⟨by rw [h1, hc1], by rw [h2, hw], n + 1, by simpa using hn, ?_, ?_, ?_, hfat⟩
        · rw [hlog, hc1, hw]
          simp [cpEvent, List.append_assoc]
        · intro h
          simp [hok h]
        · intro h
          obtain ⟨g, hg, hres⟩ := hsnh h
          exact ⟨g, List.mem_cons_of_mem _ hg, by rw [← hc1]; exact hres⟩

/-! ## `AddDirToIPFS` in closed form -/

theorem collect_eq {β : Type} (D : Deps β) (w : World β) (dir : GoString)
    (cached filtered : List GoString) (sent received : List Pair)
    (hsent : sends D w dir filtered = .ok sent) (hperm : received.Perm sent) :
    collect cached received (w.hashCache, StringMap.make) =
      (cacheAfter D w dir cached filtered, localAfter D w dir cached filtered) := by
  have hform := sends_eq D w dir filtered sent hsent
  have hb : ∀ x ∈ received, x.b = uploadHash D w dir x.a := by
    intro x hx
    have hx2 : x ∈ sent := hperm.mem_iff.mp hx
    rw [hform] at hx2
    obtain ⟨f, _, rfl⟩ := List.mem_map.mp hx2
    rfl
  have hmem : ∀ k, k ∈ received.map Pair.a ↔ k ∈ filtered := by
    intro k
    rw [(hperm.map Pair.a).mem_iff, sends_map_a D w dir filtered sent hsent]
  apply Prod.ext
  · funext k
    rw [collect_fst cached (uploadHash D w dir) received _ hb k]
    simp only [cacheAfter, hmem]
  · funext k
    rw [collect_snd cached (uploadHash D w dir) received _ hb k]
    simp only [localAfter, hmem, StringMap.make]

theorem AddDirToIPFS_eq {β : Type} (D : Deps β) (sched : List Pair → List Pair)
    (dir mfsDir : GoString) (extensions cached : List GoString) (w : World β)
    (files : List GoString) (sent : List Pair) (hs : Fair sched)
    (hdir : w.ReadDir dir = some files)
    (hsent : sends D w dir (filteredFiles files extensions) = .ok sent) :
    AddDirToIPFS D sched dir mfsDir extensions cached w =
      (copyLoop D mfsDir (localAfter D w dir cached (filteredFiles files extensions))
        (filteredFiles files extensions)
        { w with hashCache := cacheAfter D w dir cached (filteredFiles files extensions),
                 log := [] }).prepend
        (w.log ++ (filteredFiles files extensions).map (Event.upload dir) ++
          (sched sent).map Event.recv) := by
  have hlen : (sched sent).length = (filteredFiles files extensions).length := by
    rw [(hs sent).length_eq, ← sends_map_a D w dir _ sent hsent, List.length_map]
  have htake : (sched sent).take (filteredFiles files extensions).length = sched sent := by
    rw [← hlen]; exact List.take_length _
  unfold AddDirToIPFS
  simp only [hdir, hsent, htake]
  rw [collect_eq D w dir cached _ sent (sched sent) hsent (hs sent)]
  rw [← copyLoop_prepend]
  simp [World.prepend]

theorem AddDirToIPFS_upload_fatal {β : Type} (D : Deps β) (sched : List Pair → List Pair)
    (dir mfsDir : GoString) (extensions cached : List GoString) (w : World β)
    (files : List GoString) (e : Fatal) (hdir : w.ReadDir dir = some files)
    (hsent : sends D w dir (filteredFiles files extensions) = .error e) :
    AddDirToIPFS D sched dir mfsDir extensions cached w =
      .error (e, { w with log := w.log ++
        (filteredFiles files extensions).map (Event.upload dir) }) := by
  unfold AddDirToIPFS
  simp only [hdir, hsent]

theorem AddDirToIPFS_ReadDir_fatal {β : Type} (D : Deps β) (sched : List Pair → List Pair)
    (dir mfsDir : GoString) (extensions cached : List GoString) (w : World β)
    (hdir : w.ReadDir dir = none) :
    AddDirToIPFS D sched dir mfsDir extensions cached w = .error (Fatal.ReadDir, w) := by
  unfold AddDirToIPFS
  simp only [hdir]

theorem Run.prepend_world {β : Type} (pre : List Event) (r : Run β) :
    (r.prepend pre).world = r.world.prepend pre := by
  cases r <;> rfl

theorem Run.prepend_isOk {β : Type} (pre : List Event) (r : Run β) :
    (r.prepend pre).isOk = r.isOk := by
  cases r <;> rfl

theorem Run.prepend_fatal {β : Type} (pre : List Event) (r : Run β) :
    (r.prepend pre).fatal = r.fatal := by
  cases r <;> rfl

theorem AddDirToIPFS_log {β : Type} (D : Deps β) (sched : List Pair → List Pair)
    (dir mfsDir : GoString) (extensions cached : List GoString) (w : World β)
    (files : List GoString) (hdir : w.ReadDir dir = some files) :
    ∃ (received : List Pair) (hc lc : StringMap) (n : Nat),
      (AddDirToIPFS D sched dir mfsDir extensions cached w).world.log =
        w.log ++ (filteredFiles files extensions).map (Event.upload dir) ++
          received.map Event.recv ++
          ((filteredFiles files extensions).take n).map (cpEvent D mfsDir hc lc) := by
  cases hsent : sends D w dir (filteredFiles files extensions) with
  | error e =>
    refine ⟨[], StringMap.make, StringMap.make, 0, ?_⟩
    rw [AddDirToIPFS_upload_fatal D sched dir mfsDir extensions cached w files e hdir hsent]
    simp [Run.world]
  | ok sent =>
    unfold AddDirToIPFS
    simp only [hdir, hsent]
    obtain ⟨_, _, n, _, hlog, _⟩ := copyLoop_spec D mfsDir
      (collect cached ((sched sent).take (filteredFiles files extensions).length)
        (w.hashCache, StringMap.make)).2 (filteredFiles files extensions)
      { w with
        hashCache := (collect cached ((sched sent).take (filteredFiles files extensions).length)
          (w.hashCache, StringMap.make)).1,
        log := w.log ++ (filteredFiles files extensions).map (Event.upload dir) ++
          ((sched sent).take (filteredFiles files extensions).length).map Event.recv }
    exact ⟨_, _, _, n, hlog⟩

/-! ## Claims -/

/-- C1: `AddDirToIPFS` selects a listed file exactly when its name contains some entry of
the allow-list as a substring, at any offset; so `nixexprs.tar.xz.tmp` is selected by the
entry `nixexprs.tar.xz`; and every upload launched and every copy issued by the call is for
a selected file, so a file whose name contains no entry is neither uploaded nor copied. -/
theorem C1_selection_is_substring_match {β : Type} (D : Deps β)
    (sched : List Pair → List Pair) (dir mfsDir : GoString) (extensions cached : List GoString)
    (w : World β) (files : List GoString) (hdir : w.ReadDir dir = some files) :
    (∀ f, f ∈ filteredFiles files extensions ↔ f ∈ files ∧ ∃ e ∈ extensions, e <:+: f) ∧
    ("nixexprs.tar.xz.tmp".toList ∈ files → "nixexprs.tar.xz".toList ∈ extensions →
      "nixexprs.tar.xz.tmp".toList ∈ filteredFiles files extensions) ∧
    ∃ added, (AddDirToIPFS D sched dir mfsDir extensions cached w).world.log = w.log ++ added ∧
      ∀ ev ∈ added,
        (∃ f, ev = Event.upload dir f ∧ f ∈ files ∧ ∃ e ∈ extensions, e <:+: f) ∨
        (∃ x, ev = Event.recv x) ∨
        (∃ f h, ev = Event.FilesCp ("/ipfs/".toList ++ h) (D.Join mfsDir f) false ∧
          f ∈ files ∧ ∃ e ∈ extensions, e <:+: f) := by
  have hsel : ∀ f, f ∈ filteredFiles files extensions ↔
      f ∈ files ∧ ∃ e ∈ extensions, e <:+: f := by
    intro f
    rw [mem_filteredFiles]
    simp only [Contains_iff_occurs]
  refine ⟨hsel, ?_, ?_⟩
  · intro hf he
    rw [hsel]
    exact ⟨hf, _, he, by
      rw [← Contains_iff_occurs]
      decide⟩
  · obtain ⟨received, hc, lc, n, hlog⟩ :=
      AddDirToIPFS_log D sched dir mfsDir extensions cached w files hdir
    refine ⟨_, by rw [hlog, List.append_assoc, List.append_assoc], ?_⟩
    intro ev hev
    rcases List.mem_append.mp hev with hup | hev
    · obtain ⟨f, hf, rfl⟩ := List.mem_map.mp hup
      exact Or.inl ⟨f, rfl, (hsel f).mp hf⟩
    · rcases List.mem_append.mp hev with hrc | hcp
      · obtain ⟨x, _, rfl⟩ := List.mem_map.mp hrc
        exact Or.inr (Or.inl ⟨x, rfl⟩)
      · obtain ⟨f, hf, rfl⟩ := List.mem_map.mp hcp
        exact Or.inr (Or.inr ⟨f, _, rfl, (hsel f).mp (List.mem_of_mem_take hf)⟩)

/-- Witness of C1 on the release directory: `readme` is listed, contains no entry of the
allow-list, and is not selected. -/
theorem C1_selection_is_substring_match_witness :
    releaseWorld.ReadDir "rel".toList
        = some ["git-revision".toList, "nixos.iso".toList, "readme".toList] ∧
      ("nixos.iso".toList ∈ filteredFiles
          ["git-revision".toList, "nixos.iso".toList, "readme".toList] validReleasePaths ↔
        "nixos.iso".toList ∈ ["git-revision".toList, "nixos.iso".toList, "readme".toList] ∧
          ∃ e ∈ validReleasePaths, e <:+: "nixos.iso".toList) :=
  ⟨rfl, (C1_selection_is_substring_match testDeps inOrder "rel".toList "/nixfs".toList
    validReleasePaths hashableReleaseExtensions releaseWorld _ rfl).1 "nixos.iso".toList⟩

theorem sends_ok_mem {β : Type} (D : Deps β) (w : World β) (dir : GoString) :
    ∀ (fs : List GoString) (sent : List Pair), sends D w dir fs = .ok sent → ∀ f ∈ fs,
      AddToIPFS D w (w.hashCache.index f) dir f = .ok ⟨f, uploadHash D w dir f⟩ := by
  intro fs
  induction fs with
  | nil => intro _ _ f hf; cases hf
  | cons g rest ih =>
    intro sent h f hf
    simp only [sends] at h
    split at h
    · cases h
    · rename_i x hx
      split at h
      · cases h
      · rename_i xs hxs
        rcases List.mem_cons.mp hf with rfl | hf
        · have ha := (AddToIPFS_ok D w _ dir f x hx).1
          have hb : uploadHash D w dir f = x.b := by simp [uploadHash, hx]
          rw [hx, hb]
          cases x
          simp_all
        · exact ih xs hxs f hf

theorem AddDirToIPFS_hashCache {β : Type} (D : Deps β) (sched : List Pair → List Pair)
    (dir mfsDir : GoString) (extensions cached : List GoString) (w : World β)
    (files : List GoString) (sent : List Pair) (hs : Fair sched)
    (hdir : w.ReadDir dir = some files)
    (hsent : sends D w dir (filteredFiles files extensions) = .ok sent) :
    (AddDirToIPFS D sched dir mfsDir extensions cached w).world.hashCache =
      cacheAfter D w dir cached (filteredFiles files extensions) := by
  rw [AddDirToIPFS_eq D sched dir mfsDir extensions cached w files sent hs hdir hsent,
    Run.prepend_world]
  exact (copyLoop_spec D mfsDir _ _ _).1

/-- C2 (the code at the failing input): the listing of `rel` has one file, `nixos.iso.ova`,
and that file contains an entry of `validReleasePaths`, so N = 1; the source appends it to
`filteredFiles` once for `.ova` and once for `.iso`, launches two uploads, receives two
results and issues two copies to the same destination, the second of which the backend
refuses. -/
theorem C2_file_matching_two_entries_is_handled_twice :
    doubleMatchWorld.ReadDir "rel".toList = some ["nixos.iso.ova".toList] ∧
    (["nixos.iso.ova".toList].filter
      (fun f => validReleasePaths.any (fun e => Contains f e))).length = 1 ∧
    filteredFiles ["nixos.iso.ova".toList] validReleasePaths
      = ["nixos.iso.ova".toList, "nixos.iso.ova".toList] ∧
    (AddDirToIPFS testDeps inOrder "rel".toList "/nixfs".toList validReleasePaths
        hashableReleaseExtensions doubleMatchWorld).world.log =
      [Event.upload "rel".toList "nixos.iso.ova".toList,
       Event.upload "rel".toList "nixos.iso.ova".toList,
       Event.recv ⟨"nixos.iso.ova".toList, "Qmimg".toList⟩,
       Event.recv ⟨"nixos.iso.ova".toList, "Qmimg".toList⟩,
       Event.FilesCp "/ipfs/Qmimg".toList "/nixfs/nixos.iso.ova".toList false,
       Event.FilesCp "/ipfs/Qmimg".toList "/nixfs/nixos.iso.ova".toList false] ∧
    (AddDirToIPFS testDeps inOrder "rel".toList "/nixfs".toList validReleasePaths
        hashableReleaseExtensions doubleMatchWorld).fatal = some Fatal.FilesCp := by
  decide

/-- C3: when every upload of the call returns, the hash cache after `AddDirToIPFS` is the one
the fan-in loop built, and it differs from the hash cache before the call only at names of
selected files that contain an entry of the cacheable list: such a name is mapped to the
hash this call's upload of that file returned, every other key is as before, and the
upload result of a selected file containing no cacheable entry is in the call-local map
(its hash cache entry being as before). -/
theorem C3_hash_cache_written_only_for_cacheable {β : Type} (D : Deps β)
    (sched : List Pair → List Pair) (dir mfsDir : GoString) (extensions cached : List GoString)
    (w : World β) (files : List GoString) (sent : List Pair) (hs : Fair sched)
    (hdir : w.ReadDir dir = some files)
    (hsent : sends D w dir (filteredFiles files extensions) = .ok sent) :
    (AddDirToIPFS D sched dir mfsDir extensions cached w).world.hashCache =
      (collect cached (sched sent) (w.hashCache, StringMap.make)).1 ∧
    ∀ k,
      (k ∈ filteredFiles files extensions → (∃ e ∈ cached, e <:+: k) →
        ∃ h, AddToIPFS D w (w.hashCache.index k) dir k = .ok ⟨k, h⟩ ∧
          (AddDirToIPFS D sched dir mfsDir extensions cached w).world.hashCache k = some h) ∧
      (¬ (k ∈ filteredFiles files extensions ∧ ∃ e ∈ cached, e <:+: k) →
        (AddDirToIPFS D sched dir mfsDir extensions cached w).world.hashCache k
          = w.hashCache k) ∧
      (k ∈ filteredFiles files extensions → (¬ ∃ e ∈ cached, e <:+: k) →
        ∃ h, AddToIPFS D w (w.hashCache.index k) dir k = .ok ⟨k, h⟩ ∧
          (collect cached (sched sent) (w.hashCache, StringMap.make)).2 k = some h) := by
  have hcache := AddDirToIPFS_hashCache D sched dir mfsDir extensions cached w files sent hs
    hdir hsent
  have hcol := collect_eq D w dir cached _ sent (sched sent) hsent (hs sent)
  have hflag : ∀ k, cacheFlag cached k = true ↔ ∃ e ∈ cached, e <:+: k := by
    intro k
    rw [cacheFlag_iff]
    simp only [Contains_iff_occurs]
  refine ⟨by rw [hcache, hcol], fun k => ⟨?_, ?_, ?_⟩⟩
  · intro hk hc
    refine ⟨uploadHash D w dir k, sends_ok_mem D w dir _ sent hsent k hk, ?_⟩
    rw [hcache]
    simp only [cacheAfter]
    rw [if_pos ⟨(hflag k).mpr hc, hk⟩]
  · intro hnot
    rw [hcache]
    simp only [cacheAfter]
    rw [if_neg]
    rintro ⟨h1, h2⟩
    exact hnot ⟨h2, (hflag k).mp h1⟩
  · intro hk hc
    refine ⟨uploadHash D w dir k, sends_ok_mem D w dir _ sent hsent k hk, ?_⟩
    rw [hcol]
    simp only [localAfter]
    rw [if_pos]
    refine ⟨?_, hk⟩
    cases hfl : cacheFlag cached k
    · rfl
    · exact absurd ((hflag k).mp hfl) hc

/-- Witness of C3 on the release directory with the results delivered in reverse order:
the cacheable `nixos.iso` ends in the hash cache with the hash of this call's upload. -/
theorem C3_hash_cache_written_only_for_cacheable_witness :
    Fair reversed ∧
    releaseWorld.ReadDir "rel".toList
      = some ["git-revision".toList, "nixos.iso".toList, "readme".toList] ∧
    sends testDeps releaseWorld "rel".toList
        (filteredFiles ["git-revision".toList, "nixos.iso".toList, "readme".toList]
          validReleasePaths)
      = .ok [⟨"git-revision".toList, "Qmrev2".toList⟩, ⟨"nixos.iso".toList, "Qmimg2".toList⟩] ∧
    ∃ h, AddToIPFS testDeps releaseWorld (releaseWorld.hashCache.index "nixos.iso".toList)
          "rel".toList "nixos.iso".toList = .ok ⟨"nixos.iso".toList, h⟩ ∧
      (AddDirToIPFS testDeps reversed "rel".toList "/nixfs".toList validReleasePaths
        hashableReleaseExtensions releaseWorld).world.hashCache "nixos.iso".toList = some h :=
  ⟨fun l => List.reverse_perm l, rfl, rfl,
    ((C3_hash_cache_written_only_for_cacheable testDeps reversed "rel".toList "/nixfs".toList
      validReleasePaths hashableReleaseExtensions releaseWorld
      ["git-revision".toList, "nixos.iso".toList, "readme".toList]
      [⟨"git-revision".toList, "Qmrev2".toList⟩, ⟨"nixos.iso".toList, "Qmimg2".toList⟩]
      (fun l => List.reverse_perm l) rfl rfl).2 "nixos.iso".toList).1
      (by decide) ⟨".iso".toList, by decide, by
        rw [← Contains_iff_occurs]
        decide⟩⟩

/-! ## Runs of `AddDirToIPFS` in which every upload returns -/

theorem AddDirToIPFS_run {β : Type} (D : Deps β) (sched : List Pair → List Pair)
    (dir mfsDir : GoString) (extensions cached : List GoString) (w : World β)
    (files : List GoString) (sent : List Pair) (hs : Fair sched)
    (hdir : w.ReadDir dir = some files)
    (hsent : sends D w dir (filteredFiles files extensions) = .ok sent) :
    ∃ n, n ≤ (filteredFiles files extensions).length ∧
      (AddDirToIPFS D sched dir mfsDir extensions cached w).world.log =
        w.log ++ (filteredFiles files extensions).map (Event.upload dir) ++
          (sched sent).map Event.recv ++
          ((filteredFiles files extensions).take n).map
            (cpEvent D mfsDir (cacheAfter D w dir cached (filteredFiles files extensions))
              (localAfter D w dir cached (filteredFiles files extensions))) ∧
      ((AddDirToIPFS D sched dir mfsDir extensions cached w).isOk = true →
        n = (filteredFiles files extensions).length) ∧
      ((AddDirToIPFS D sched dir mfsDir extensions cached w).fatal
          = some Fatal.shouldNotHappen →
        ∃ f ∈ filteredFiles files extensions,
          resolve (cacheAfter D w dir cached (filteredFiles files extensions))
            (localAfter D w dir cached (filteredFiles files extensions)) f = []) ∧
      ((AddDirToIPFS D sched dir mfsDir extensions cached w).isOk = false →
        (AddDirToIPFS D sched dir mfsDir extensions cached w).fatal
            = some Fatal.shouldNotHappen ∨
          (AddDirToIPFS D sched dir mfsDir extensions cached w).fatal = some Fatal.FilesCp) := by
  rw [AddDirToIPFS_eq D sched dir mfsDir extensions cached w files sent hs hdir hsent]
  simp only [Run.prepend_world, Run.prepend_isOk, Run.prepend_fatal]
  obtain ⟨_, _, n, hn, hlog, hok, hsnh, hfat⟩ := copyLoop_spec D mfsDir
    (localAfter D w dir cached (filteredFiles files extensions))
    (filteredFiles files extensions)
    { w with hashCache := cacheAfter D w dir cached (filteredFiles files extensions),
             log := [] }
  refine ⟨n, hn, ?_, hok, hsnh, hfat⟩
  simp only [World.prepend, hlog, List.nil_append]

theorem resolve_uncached {β : Type} (D : Deps β) (w : World β) (dir : GoString)
    (cached filtered : List GoString) (f : GoString) (hf : f ∈ filtered)
    (hc : cacheFlag cached f = false) (hempty : w.hashCache.index f = []) :
    resolve (cacheAfter D w dir cached filtered) (localAfter D w dir cached filtered) f
      = uploadHash D w dir f := by
  have h1 : (cacheAfter D w dir cached filtered).index f = [] := by
    simp only [StringMap.index, cacheAfter, hc, Bool.false_eq_true, false_and, if_false]
    exact hempty
  have h2 : (localAfter D w dir cached filtered).index f = uploadHash D w dir f := by
    simp [StringMap.index, localAfter, hc, hf]
  simp only [resolve, h1, if_true, h2]

/-- C4 (as stated, at a concrete input): `git-revision` is selected and matches no
cacheable extension, this call's upload of it returns `Qmrev2`, yet the hash copied into
the remote directory is `QmOld`, the entry the hash cache held under that name before the
call. -/
theorem C4_stale_cache_entry_shadows_fresh_upload :
    staleWorld.ReadDir "rel".toList = some ["git-revision".toList] ∧
    "git-revision".toList ∈ filteredFiles ["git-revision".toList] validReleasePaths ∧
    cacheFlag hashableReleaseExtensions "git-revision".toList = false ∧
    staleWorld.hashCache "git-revision".toList = some "QmOld".toList ∧
    AddToIPFS testDeps staleWorld (staleWorld.hashCache.index "git-revision".toList)
        "rel".toList "git-revision".toList
      = .ok ⟨"git-revision".toList, "Qmrev2".toList⟩ ∧
    AddDirToIPFS testDeps inOrder "rel".toList "/nixfs".toList validReleasePaths
        hashableReleaseExtensions staleWorld =
      .ok { staleWorld with
        ipfs := [("/nixfs/git-revision".toList, "QmOld".toList)],
        log := [Event.upload "rel".toList "git-revision".toList,
                Event.recv ⟨"git-revision".toList, "Qmrev2".toList⟩,
                Event.FilesCp "/ipfs/QmOld".toList "/nixfs/git-revision".toList false] } := by
  refine ⟨rfl, by decide, by decide, rfl, rfl, ?_⟩
  simp only [AddDirToIPFS, staleWorld, testWorld]
  rfl

/-- C4 (amended): for a selected file `f` whose name matches no cacheable extension and
for which the hash cache holds no non-empty hash when the call starts, every copy that
`AddDirToIPFS` issues for `f` has as source the hash returned by this call's upload of
`f`: the copies issued are those of the first `n` selected files, each from the hash
`copied` gives, all of them when the call returns, and `copied f` is the fresh hash. -/
theorem C4_uncached_file_is_copied_from_fresh_upload {β : Type} (D : Deps β)
    (sched : List Pair → List Pair) (dir mfsDir : GoString) (extensions cached : List GoString)
    (w : World β) (files : List GoString) (sent : List Pair) (f : GoString) (hs : Fair sched)
    (hdir : w.ReadDir dir = some files)
    (hsent : sends D w dir (filteredFiles files extensions) = .ok sent)
    (hf : f ∈ filteredFiles files extensions) (hnc : ¬ ∃ e ∈ cached, e <:+: f)
    (hempty : w.hashCache.index f = []) :
    ∃ (h : GoString) (copied : GoString → GoString) (n : Nat),
      AddToIPFS D w (w.hashCache.index f) dir f = .ok ⟨f, h⟩ ∧ copied f = h ∧
      (AddDirToIPFS D sched dir mfsDir extensions cached w).world.log =
        w.log ++ (filteredFiles files extensions).map (Event.upload dir) ++
          (sched sent).map Event.recv ++
          ((filteredFiles files extensions).take n).map
            (fun g => Event.FilesCp ("/ipfs/".toList ++ copied g) (D.Join mfsDir g) false) ∧
      ((AddDirToIPFS D sched dir mfsDir extensions cached w).isOk = true →
        n = (filteredFiles files extensions).length) := by
  obtain ⟨n, _, hlog, hok, _, _⟩ :=
    AddDirToIPFS_run D sched dir mfsDir extensions cached w files sent hs hdir hsent
  have hc : cacheFlag cached f = false := by
    cases hfl : cacheFlag cached f
    · rfl
    · have := (cacheFlag_iff cached f).mp hfl
      simp only [Contains_iff_occurs] at this
      exact absurd this hnc
  refine ⟨uploadHash D w dir f,
    resolve (cacheAfter D w dir cached (filteredFiles files extensions))
      (localAfter D w dir cached (filteredFiles files extensions)), n,
    sends_ok_mem D w dir _ sent hsent f hf,
    resolve_uncached D w dir cached _ f hf hc hempty, ?_, hok⟩
  rw [hlog]
  rfl

/-- Witness of C4 (amended) on the release directory at a first run, with nothing in the
hash cache: `git-revision` is copied from the hash of this call's upload. -/
theorem C4_uncached_file_is_copied_from_fresh_upload_witness :
    Fair inOrder ∧
    freshWorld.ReadDir "rel".toList
      = some ["git-revision".toList, "nixos.iso".toList, "readme".toList] ∧
    "git-revision".toList ∈ filteredFiles
      ["git-revision".toList, "nixos.iso".toList, "readme".toList] validReleasePaths ∧
    (¬ ∃ e ∈ hashableReleaseExtensions, e <:+: "git-revision".toList) ∧
    freshWorld.hashCache.index "git-revision".toList = [] ∧
    ∃ (h : GoString) (copied : GoString → GoString), AddToIPFS testDeps freshWorld
        (freshWorld.hashCache.index "git-revision".toList) "rel".toList "git-revision".toList
          = .ok ⟨"git-revision".toList, h⟩ ∧ copied "git-revision".toList = h :=
  have hnc : ¬ ∃ e ∈ hashableReleaseExtensions, e <:+: "git-revision".toList := by
    simp only [← Contains_iff_occurs]
    decide
  ⟨fun l => List.Perm.refl l, rfl, by decide, hnc, rfl,
    let ⟨h, copied, _, h1, h2, _⟩ :=
      C4_uncached_file_is_copied_from_fresh_upload testDeps inOrder "rel".toList
        "/nixfs".toList validReleasePaths hashableReleaseExtensions freshWorld
        ["git-revision".toList, "nixos.iso".toList, "readme".toList]
        [⟨"git-revision".toList, "Qmrev2".toList⟩, ⟨"nixos.iso".toList, "Qmimg2".toList⟩]
        "git-revision".toList (fun l => List.Perm.refl l) rfl rfl (by decide) hnc rfl
    ⟨h, copied, h1, h2⟩⟩

/-- C5 (the code at the failing input): on a second run the hash cache maps the cacheable
`nixos.iso` to the hash `Qmimg` of its unchanged bytes, and `AddDirToIPFS` still launches
the upload task of that file, whose `AddToIPFS` ignores the cached hash it is handed and
calls content-add; when the bytes changed since the entry was made, the hash copied and
left in the hash cache is the fresh `Qmimg2`, not the cached one. -/
theorem C5_cached_file_is_uploaded_again :
    secondRunWorld.hashCache "nixos.iso".toList = some "Qmimg".toList ∧
    cacheFlag hashableReleaseExtensions "nixos.iso".toList = true ∧
    (AddDirToIPFS testDeps inOrder "rel".toList "/nixfs".toList validReleasePaths
        hashableReleaseExtensions secondRunWorld).world.log =
      [Event.upload "rel".toList "nixos.iso".toList,
       Event.recv ⟨"nixos.iso".toList, "Qmimg".toList⟩,
       Event.FilesCp "/ipfs/Qmimg".toList "/nixfs/nixos.iso".toList false] ∧
    AddToIPFS testDeps secondRunWorld "Qmimg".toList "rel".toList "nixos.iso".toList
      = .ok ⟨"nixos.iso".toList, "Qmimg".toList⟩ ∧
    changedWorld.hashCache "nixos.iso".toList = some "Qmimg".toList ∧
    (AddDirToIPFS testDeps inOrder "rel".toList "/nixfs".toList validReleasePaths
        hashableReleaseExtensions changedWorld).world.log =
      [Event.upload "rel".toList "nixos.iso".toList,
       Event.recv ⟨"nixos.iso".toList, "Qmimg2".toList⟩,
       Event.FilesCp "/ipfs/Qmimg2".toList "/nixfs/nixos.iso".toList false] ∧
    (AddDirToIPFS testDeps inOrder "rel".toList "/nixfs".toList validReleasePaths
        hashableReleaseExtensions changedWorld).world.hashCache "nixos.iso".toList
      = some "Qmimg2".toList := by
  refine ⟨rfl, by decide, by decide, rfl, rfl, by decide, by decide⟩

/-- C10: for any two orders in which the channel may deliver the upload results, the two
runs of `AddDirToIPFS` end the same way, with the same hash cache and the same backend
state, and their logs are the log before the call followed by the same upload launches,
then the received results (the same results, in the two orders), then the same copy
calls: no copy is issued before the last result is received, and when a copy is issued
one result has been received for every upload launched. -/
theorem C10_arrival_order_is_irrelevant {β : Type} (D : Deps β)
    (sched1 sched2 : List Pair → List Pair) (dir mfsDir : GoString)
    (extensions cached : List GoString) (w : World β) (hs1 : Fair sched1)
    (hs2 : Fair sched2) :
    (AddDirToIPFS D sched1 dir mfsDir extensions cached w).world.hashCache =
      (AddDirToIPFS D sched2 dir mfsDir extensions cached w).world.hashCache ∧
    (AddDirToIPFS D sched1 dir mfsDir extensions cached w).world.ipfs =
      (AddDirToIPFS D sched2 dir mfsDir extensions cached w).world.ipfs ∧
    (AddDirToIPFS D sched1 dir mfsDir extensions cached w).fatal =
      (AddDirToIPFS D sched2 dir mfsDir extensions cached w).fatal ∧
    ∃ (ups : List Event) (recv1 recv2 : List Pair) (cps : List Event),
      (AddDirToIPFS D sched1 dir mfsDir extensions cached w).world.log =
        w.log ++ ups ++ recv1.map Event.recv ++ cps ∧
      (AddDirToIPFS D sched2 dir mfsDir extensions cached w).world.log =
        w.log ++ ups ++ recv2.map Event.recv ++ cps ∧
      recv1.Perm recv2 ∧
      (∀ ev ∈ ups, ∃ f, ev = Event.upload dir f) ∧
      (∀ ev ∈ cps, ∃ src dst, ev = Event.FilesCp src dst false) ∧
      (cps ≠ [] → recv1.length = ups.length) := by
  cases hdir : w.ReadDir dir with
  | none =>
    rw [AddDirToIPFS_ReadDir_fatal D sched1 dir mfsDir extensions cached w hdir,
      AddDirToIPFS_ReadDir_fatal D sched2 dir mfsDir extensions cached w hdir]
    exact ⟨rfl, rfl, rfl, [], [], [], [], by simp [Run.world], by simp [Run.world],
      List.Perm.refl _, by simp, by simp, by simp⟩
  | some files =>
    cases hsent : sends D w dir (filteredFiles files extensions) with
    | error e =>
      rw [AddDirToIPFS_upload_fatal D sched1 dir mfsDir extensions cached w files e hdir hsent,
        AddDirToIPFS_upload_fatal D sched2 dir mfsDir extensions cached w files e hdir hsent]
      refine ⟨rfl, rfl, rfl, (filteredFiles files extensions).map (Event.upload dir), [], [],
        [], by simp [Run.world], by simp [Run.world], List.Perm.refl _, ?_, by simp, by simp⟩
      intro ev hev
      obtain ⟨f, _, rfl⟩ := List.mem_map.mp hev
      exact ⟨f, rfl⟩
    | ok sent =>
      rw [AddDirToIPFS_eq D sched1 dir mfsDir extensions cached w files sent hs1 hdir hsent,
        AddDirToIPFS_eq D sched2 dir mfsDir extensions cached w files sent hs2 hdir hsent]
      obtain ⟨_, _, n, _, hlog, _⟩ := copyLoop_spec D mfsDir
        (localAfter D w dir cached (filteredFiles files extensions))
        (filteredFiles files extensions)
        { w with hashCache := cacheAfter D w dir cached (filteredFiles files extensions),
                 log := [] }
      simp only [List.nil_append] at hlog
      generalize copyLoop D mfsDir
        (localAfter D w dir cached (filteredFiles files extensions))
        (filteredFiles files extensions)
        { w with hashCache := cacheAfter D w dir cached (filteredFiles files extensions),
                 log := [] } = X at hlog
      refine ⟨by rw [Run.prepend_world, Run.prepend_world]; rfl,
        by rw [Run.prepend_world, Run.prepend_world]; rfl,
        by rw [Run.prepend_fatal, Run.prepend_fatal],
        (filteredFiles files extensions).map (Event.upload dir),
        sched1 sent, sched2 sent, X.world.log, by rw [Run.prepend_world]; rfl,
        by rw [Run.prepend_world]; rfl, (hs1 sent).trans (hs2 sent).symm, ?_, ?_, ?_⟩
      · intro ev hev
        obtain ⟨f, _, rfl⟩ := List.mem_map.mp hev
        exact ⟨f, rfl⟩
      · intro ev hev
        rw [hlog] at hev
        obtain ⟨f, _, rfl⟩ := List.mem_map.mp hev
        exact ⟨_, _, rfl⟩
      · intro _
        rw [(hs1 sent).length_eq, List.length_map,
          ← sends_map_a D w dir _ sent hsent, List.length_map]

/-- Witness of C10 on the release directory with the results delivered in launch order
and in reverse: the two runs leave the same hash cache. -/
theorem C10_arrival_order_is_irrelevant_witness :
    Fair inOrder ∧ Fair reversed ∧
    (AddDirToIPFS testDeps inOrder "rel".toList "/nixfs".toList validReleasePaths
        hashableReleaseExtensions releaseWorld).world.hashCache =
      (AddDirToIPFS testDeps reversed "rel".toList "/nixfs".toList validReleasePaths
        hashableReleaseExtensions releaseWorld).world.hashCache :=
  ⟨fun l => List.Perm.refl l, fun l => List.reverse_perm l,
    (C10_arrival_order_is_irrelevant testDeps inOrder reversed "rel".toList "/nixfs".toList
      validReleasePaths hashableReleaseExtensions releaseWorld (fun l => List.Perm.refl l)
      (fun l => List.reverse_perm l)).1⟩

/-! ## `addBinaryCache` and `addNixosRelease` -/

theorem FilesMkdir_world {β : Type} (D : Deps β) (path : GoString) (parents : Bool)
    (w : World β) :
    (FilesMkdir D path parents w).world =
      { w with ipfs := (D.FilesMkdir path parents w.ipfs).2,
               log := w.log ++ [Event.FilesMkdir path parents] } := by
  unfold FilesMkdir
  cases h : (D.FilesMkdir path parents w.ipfs).1 <;> simp [Run.world, h]

theorem FilesMkdir_ok {β : Type} (D : Deps β) (path : GoString) (parents : Bool)
    (w : World β) (h : (D.FilesMkdir path parents w.ipfs).1 = true) :
    FilesMkdir D path parents w =
      .ok { w with ipfs := (D.FilesMkdir path parents w.ipfs).2,
                   log := w.log ++ [Event.FilesMkdir path parents] } := by
  unfold FilesMkdir
  simp [h]

theorem AddDirToIPFS_frame {β : Type} (D : Deps β) (sched : List Pair → List Pair)
    (dir mfsDir : GoString) (extensions cached : List GoString) (w : World β) (k : GoString)
    (hk : cacheFlag cached k = false) :
    (AddDirToIPFS D sched dir mfsDir extensions cached w).world.hashCache k = w.hashCache k := by
  cases hdir : w.ReadDir dir with
  | none =>
    rw [AddDirToIPFS_ReadDir_fatal D sched dir mfsDir extensions cached w hdir]
    rfl
  | some files =>
    cases hsent : sends D w dir (filteredFiles files extensions) with
    | error e =>
      rw [AddDirToIPFS_upload_fatal D sched dir mfsDir extensions cached w files e hdir hsent]
      rfl
    | ok sent =>
      unfold AddDirToIPFS
      simp only [hdir, hsent]
      rw [(copyLoop_spec D mfsDir _ _ _).1]
      exact collect_frame cached _ _ k hk

theorem nar_of_narinfo (k : GoString) (h : ".narinfo".toList <:+: k) : ".nar".toList <:+: k :=
  List.IsInfix.trans ⟨[], "info".toList, rfl⟩ h

theorem cacheFlag_nar (k : GoString) : cacheFlag [".nar".toList] k = true ↔ ".nar".toList <:+: k := by
  rw [cacheFlag_iff]
  simp only [List.mem_singleton, exists_eq_left, Contains_iff_occurs]

theorem cacheFlag_narinfo (k : GoString) :
    cacheFlag [".narinfo".toList] k = true ↔ ".narinfo".toList <:+: k := by
  rw [cacheFlag_iff]
  simp only [List.mem_singleton, exists_eq_left, Contains_iff_occurs]

theorem addBinaryCache_frame {β : Type} (D : Deps β) (sched : List Pair → List Pair)
    (localDir mfsDir : GoString) (w : World β) (k : GoString) (hk : ¬ ".nar".toList <:+: k) :
    (addBinaryCache D sched localDir mfsDir w).world.hashCache k = w.hashCache k := by
  have hnar : cacheFlag [".nar".toList] k = false := by
    cases h : cacheFlag [".nar".toList] k
    · rfl
    · exact absurd ((cacheFlag_nar k).mp h) hk
  have hinfo : cacheFlag [".narinfo".toList] k = false := by
    cases h : cacheFlag [".narinfo".toList] k
    · rfl
    · exact absurd (nar_of_narinfo k ((cacheFlag_narinfo k).mp h)) hk
  unfold addBinaryCache
  simp only
  have h1 := FilesMkdir_world D (D.Join mfsDir "binary_cache".toList) false w
  cases hm1 : FilesMkdir D (D.Join mfsDir "binary_cache".toList) false w with
  | error e =>
    rw [hm1] at h1
    simp only [Run.world] at h1 ⊢
    rw [h1]
  | ok w1 =>
    rw [hm1] at h1
    simp only [Run.world] at h1
    dsimp only
    have h2 := FilesMkdir_world D
      (D.Join (D.Join mfsDir "binary_cache".toList) "nar".toList) false w1
    cases hm2 : FilesMkdir D (D.Join (D.Join mfsDir "binary_cache".toList) "nar".toList)
      false w1 with
    | error e =>
      rw [hm2] at h2
      simp only [Run.world] at h2 ⊢
      rw [h2, h1]
    | ok w2 =>
      rw [hm2] at h2
      simp only [Run.world] at h2
      dsimp only
      have hw2 : w2.hashCache k = w.hashCache k := by rw [h2, h1]
      have h3 := AddDirToIPFS_frame D sched (D.Join localDir "binary_cache".toList)
        (D.Join mfsDir "binary_cache".toList) [".narinfo".toList] [".narinfo".toList] w2 k hinfo
      cases hm3 : AddDirToIPFS D sched (D.Join localDir "binary_cache".toList)
        (D.Join mfsDir "binary_cache".toList) [".narinfo".toList] [".narinfo".toList] w2 with
      | error e =>
        rw [hm3] at h3
        simp only [Run.world] at h3 ⊢
        rw [h3, hw2]
      | ok w3 =>
        rw [hm3] at h3
        simp only [Run.world] at h3
        dsimp only
        have h4 := AddDirToIPFS_frame D sched
          (D.Join (D.Join localDir "binary_cache".toList) "nar".toList)
          (D.Join (D.Join mfsDir "binary_cache".toList) "nar".toList)
          [".nar".toList, "nar-cache-info".toList] [".nar".toList] w3 k hnar
        cases hm4 : AddDirToIPFS D sched
          (D.Join (D.Join localDir "binary_cache".toList) "nar".toList)
          (D.Join (D.Join mfsDir "binary_cache".toList) "nar".toList)
          [".nar".toList, "nar-cache-info".toList] [".nar".toList] w3 with
        | error e =>
          rw [hm4] at h4
          simp only [Run.world] at h4 ⊢
          rw [h4, h3, hw2]
        | ok w4 =>
          rw [hm4] at h4
          simp only [Run.world] at h4 ⊢
          simp only [FilesFlush]
          rw [h4, h3, hw2]

/-! ## Returning runs of `AddDirToIPFS` and `addBinaryCache` -/

theorem AddToIPFS_congr {β : Type} (D : Deps β) (w v : World β) (h c dir f : GoString)
    (hnode : v.node = w.node) : AddToIPFS D v h dir f = AddToIPFS D w c dir f := by
  unfold AddToIPFS
  rw [hnode]

theorem copyLoop_ReadDir {β : Type} (D : Deps β) (mfsDir : GoString) (lc : StringMap) :
    ∀ (fs : List GoString) (w : World β),
      (copyLoop D mfsDir lc fs w).world.ReadDir = w.ReadDir := by
  intro fs
  induction fs with
  | nil => intro w; rfl
  | cons f rest ih =>
    intro w
    simp only [copyLoop]
    by_cases hr : resolve w.hashCache lc f = []
    · simp only [hr, if_true]
      rfl
    · simp only [hr, if_false]
      have hw := FilesCp_world D ("/ipfs/".toList ++ resolve w.hashCache lc f)
        (D.Join mfsDir f) false w
      cases hcp : FilesCp D ("/ipfs/".toList ++ resolve w.hashCache lc f) (D.Join mfsDir f)
        false w with
      | error e =>
        rw [hcp] at hw
        simp only [Run.world] at hw ⊢
        rw [hw]
      | ok w1 =>
        rw [hcp] at hw
        simp only [Run.world] at hw
        dsimp only
        rw [ih w1, hw]

/-- What a returning call of `AddDirToIPFS` leaves behind: the local files and listings as
they were, the log grown and holding an upload for every selected file, the hash cache
written with this call's upload hash at every selected cacheable name and untouched
elsewhere. -/
theorem AddDirToIPFS_returns {β : Type} (D : Deps β) (sched : List Pair → List Pair)
    (dir mfsDir : GoString) (extensions cached : List GoString) (w v : World β)
    (files : List GoString) (hs : Fair sched) (hdir : w.ReadDir dir = some files)
    (hrun : AddDirToIPFS D sched dir mfsDir extensions cached w = .ok v) :
    v.ReadDir = w.ReadDir ∧ v.node = w.node ∧
    (∀ ev ∈ w.log, ev ∈ v.log) ∧
    (∀ f ∈ filteredFiles files extensions, Event.upload dir f ∈ v.log) ∧
    (∀ k, cacheFlag cached k = true → k ∈ filteredFiles files extensions →
      ∃ h, AddToIPFS D w (w.hashCache.index k) dir k = .ok ⟨k, h⟩ ∧ v.hashCache k = some h) ∧
    (∀ k, ¬ (cacheFlag cached k = true ∧ k ∈ filteredFiles files extensions) →
      v.hashCache k = w.hashCache k) := by
  cases hsent : sends D w dir (filteredFiles files extensions) with
  | error e =>
    rw [AddDirToIPFS_upload_fatal D sched dir mfsDir extensions cached w files e hdir hsent]
      at hrun
    cases hrun
  | ok sent =>
    have hcache := AddDirToIPFS_hashCache D sched dir mfsDir extensions cached w files sent hs
      hdir hsent
    obtain ⟨received, hc, lc, n, hlog⟩ :=
      AddDirToIPFS_log D sched dir mfsDir extensions cached w files hdir
    have heq := AddDirToIPFS_eq D sched dir mfsDir extensions cached w files sent hs hdir hsent
    have hrd : (AddDirToIPFS D sched dir mfsDir extensions cached w).world.ReadDir
        = w.ReadDir := by
      rw [heq, Run.prepend_world]
      exact copyLoop_ReadDir D mfsDir _ _ _
    have hnd : (AddDirToIPFS D sched dir mfsDir extensions cached w).world.node = w.node := by
      rw [heq, Run.prepend_world]
      exact (copyLoop_spec D mfsDir _ _ _).2.1
    rw [hrun] at hcache hlog hrd hnd
    simp only [Run.world] at hcache hlog hrd hnd
    refine ⟨hrd, hnd, ?_, ?_, ?_, ?_⟩
    · intro ev hev
      rw [hlog]
      simp only [List.mem_append]
      exact Or.inl (Or.inl (Or.inl hev))
    · intro f hf
      rw [hlog]
      simp only [List.mem_append, List.mem_map]
      exact Or.inl (Or.inl (Or.inr ⟨f, hf, rfl⟩))
    · intro k hk hsel
      refine ⟨uploadHash D w dir k, sends_ok_mem D w dir _ sent hsent k hsel, ?_⟩
      rw [hcache]
      simp only [cacheAfter]
      rw [if_pos ⟨hk, hsel⟩]
    · intro k hnot
      rw [hcache]
      simp only [cacheAfter]
      rw [if_neg hnot]

theorem FilesMkdir_returns {β : Type} (D : Deps β) (path : GoString) (parents : Bool)
    (w v : World β) (hrun : FilesMkdir D path parents w = .ok v) :
    v.ReadDir = w.ReadDir ∧ v.node = w.node ∧ v.hashCache = w.hashCache ∧
      (∀ ev ∈ w.log, ev ∈ v.log) := by
  have hw := FilesMkdir_world D path parents w
  rw [hrun] at hw
  simp only [Run.world] at hw
  rw [hw]
  exact ⟨rfl, rfl, rfl, fun ev hev => List.mem_append.mpr (Or.inl hev)⟩

/-- The steps of a returning run of `addBinaryCache`. -/
theorem addBinaryCache_steps {β : Type} (D : Deps β) (sched : List Pair → List Pair)
    (localDir mfsDir : GoString) (w : World β)
    (hok : (addBinaryCache D sched localDir mfsDir w).isOk = true) :
    ∃ w1 w2 w3 w4,
      FilesMkdir D (D.Join mfsDir "binary_cache".toList) false w = .ok w1 ∧
      FilesMkdir D (D.Join (D.Join mfsDir "binary_cache".toList) "nar".toList) false w1
        = .ok w2 ∧
      AddDirToIPFS D sched (D.Join localDir "binary_cache".toList)
        (D.Join mfsDir "binary_cache".toList) [".narinfo".toList] [".narinfo".toList] w2
        = .ok w3 ∧
      AddDirToIPFS D sched (D.Join (D.Join localDir "binary_cache".toList) "nar".toList)
        (D.Join (D.Join mfsDir "binary_cache".toList) "nar".toList)
        [".nar".toList, "nar-cache-info".toList] [".nar".toList] w3 = .ok w4 ∧
      addBinaryCache D sched localDir mfsDir w
        = .ok (FilesFlush D (D.Join mfsDir "binary_cache".toList) w4) := by
  unfold addBinaryCache at hok
  dsimp only at hok
  split at hok
  · simp [Run.isOk] at hok
  · rename_i w1 h1
    split at hok
    · simp [Run.isOk] at hok
    · rename_i w2 h2
      split at hok
      · simp [Run.isOk] at hok
      · rename_i w3 h3
        split at hok
        · simp [Run.isOk] at hok
        · rename_i w4 h4
          refine ⟨w1, w2, w3, w4, h1, h2, h3, h4, ?_⟩
          unfold addBinaryCache
          simp only [h1, h2, h3, h4]

/-- C9 (as stated, at a concrete input): the `nar` directory holds `store.nar-cache-info`,
which the allow-list selects because its name contains `nar-cache-info`; the name also
contains `.nar`, so the fan-in loop writes its hash into the hash cache, which had no
entry under that name. On the test backend the run then dies of the second copy of the
twice-selected file, on a backend that accepts that copy it returns; either way the hash
cache has been written. -/
theorem C9_cache_info_file_written_to_hash_cache :
    cacheInfoWorld.ReadDir "cache/binary_cache/nar".toList
      = some ["store.nar-cache-info".toList] ∧
    Contains "store.nar-cache-info".toList "nar-cache-info".toList = true ∧
    "store.nar-cache-info".toList ∈ filteredFiles ["store.nar-cache-info".toList]
      [".nar".toList, "nar-cache-info".toList] ∧
    cacheInfoWorld.hashCache "store.nar-cache-info".toList = none ∧
    (addBinaryCache lenientDeps inOrder "cache".toList "/nixfs".toList cacheInfoWorld).isOk
      = true ∧
    (addBinaryCache lenientDeps inOrder "cache".toList "/nixfs".toList
        cacheInfoWorld).world.hashCache "store.nar-cache-info".toList = some "Qmidx".toList ∧
    (addBinaryCache testDeps inOrder "cache".toList "/nixfs".toList cacheInfoWorld).fatal
      = some Fatal.FilesCp ∧
    (addBinaryCache testDeps inOrder "cache".toList "/nixfs".toList
        cacheInfoWorld).world.hashCache "store.nar-cache-info".toList = some "Qmidx".toList := by
  refine ⟨rfl, by decide, by decide, rfl, by decide, by decide, by decide, by decide⟩

/-- C9 (amended): in a run of `addBinaryCache` that returns, every file of the binary cache
directory whose name contains `.narinfo` is uploaded and treated as cacheable, its upload
hash ending in the hash cache (unless the `nar` directory lists the same name, whose
upload then overwrites it); every file of the `nar` directory whose name contains `.nar`
is uploaded and its upload hash is written into the hash cache; every file of the `nar`
directory whose name contains `nar-cache-info` but not `.nar`, as the name
`nar-cache-info` itself, is uploaded while its hash cache entry stays as it was; and the
hash cache is unchanged at every key that is neither a `.narinfo` name of the binary cache
directory nor a `.nar` name of the `nar` directory. -/
theorem C9_binary_cache_caches_exactly_nar_names {β : Type} (D : Deps β)
    (sched : List Pair → List Pair) (localDir mfsDir : GoString) (w : World β)
    (files1 files2 : List GoString) (hs : Fair sched)
    (hdir1 : w.ReadDir (D.Join localDir "binary_cache".toList) = some files1)
    (hdir2 : w.ReadDir (D.Join (D.Join localDir "binary_cache".toList) "nar".toList)
      = some files2)
    (hok : (addBinaryCache D sched localDir mfsDir w).isOk = true) :
    (∀ f ∈ files1, ".narinfo".toList <:+: f →
      Event.upload (D.Join localDir "binary_cache".toList) f ∈
        (addBinaryCache D sched localDir mfsDir w).world.log ∧
      (f ∉ files2 → ∃ h,
        AddToIPFS D w (w.hashCache.index f) (D.Join localDir "binary_cache".toList) f
          = .ok ⟨f, h⟩ ∧
        (addBinaryCache D sched localDir mfsDir w).world.hashCache f = some h)) ∧
    (∀ f ∈ files2, ".nar".toList <:+: f →
      Event.upload (D.Join (D.Join localDir "binary_cache".toList) "nar".toList) f ∈
        (addBinaryCache D sched localDir mfsDir w).world.log ∧
      ∃ h, AddToIPFS D w (w.hashCache.index f)
          (D.Join (D.Join localDir "binary_cache".toList) "nar".toList) f = .ok ⟨f, h⟩ ∧
        (addBinaryCache D sched localDir mfsDir w).world.hashCache f = some h) ∧
    (∀ f ∈ files2, "nar-cache-info".toList <:+: f → ¬ ".nar".toList <:+: f →
      Event.upload (D.Join (D.Join localDir "binary_cache".toList) "nar".toList) f ∈
        (addBinaryCache D sched localDir mfsDir w).world.log ∧
      (addBinaryCache D sched localDir mfsDir w).world.hashCache f = w.hashCache f) ∧
    (∀ k, ¬ ((k ∈ files1 ∧ ".narinfo".toList <:+: k) ∨ (k ∈ files2 ∧ ".nar".toList <:+: k)) →
      (addBinaryCache D sched localDir mfsDir w).world.hashCache k = w.hashCache k) ∧
    ("nar-cache-info".toList <:+: "nar-cache-info".toList ∧
      ¬ ".nar".toList <:+: "nar-cache-info".toList) := by
  obtain ⟨w1, w2, w3, w4, h1, h2, h3, h4, hfinal⟩ :=
    addBinaryCache_steps D sched localDir mfsDir w hok
  obtain ⟨hrd1, hnd1, hhc1, hlg1⟩ := FilesMkdir_returns D _ _ w w1 h1
  obtain ⟨hrd2, hnd2, hhc2, hlg2⟩ := FilesMkdir_returns D _ _ w1 w2 h2
  have hdirA : w2.ReadDir (D.Join localDir "binary_cache".toList) = some files1 := by
    rw [hrd2, hrd1, hdir1]
  obtain ⟨hrd3, hnd3, hlg3, hup3, hwr3, hfr3⟩ := AddDirToIPFS_returns D sched _ _ _ _ w2 w3
    files1 hs hdirA h3
  have hdirB : w3.ReadDir (D.Join (D.Join localDir "binary_cache".toList) "nar".toList)
      = some files2 := by
    rw [hrd3, hrd2, hrd1, hdir2]
  obtain ⟨_, _, hlg4, hup4, hwr4, hfr4⟩ := AddDirToIPFS_returns D sched _ _ _ _ w3 w4
    files2 hs hdirB h4
  have hnode2 : w2.node = w.node := by rw [hnd2, hnd1]
  have hnode3 : w3.node = w.node := by rw [hnd3, hnode2]
  have hcache2 : w2.hashCache = w.hashCache := by rw [hhc2, hhc1]
  have hsel1 : ∀ f, f ∈ filteredFiles files1 [".narinfo".toList] ↔
      f ∈ files1 ∧ ".narinfo".toList <:+: f := by
    intro f
    rw [mem_filteredFiles]
    simp only [List.mem_singleton, exists_eq_left, Contains_iff_occurs]
  have hsel2 : ∀ f, f ∈ filteredFiles files2 [".nar".toList, "nar-cache-info".toList] ↔
      f ∈ files2 ∧ (".nar".toList <:+: f ∨ "nar-cache-info".toList <:+: f) := by
    intro f
    rw [mem_filteredFiles]
    simp only [List.mem_cons, List.mem_singleton, List.not_mem_nil, or_false,
      exists_eq_or_imp, exists_eq_left, Contains_iff_occurs]
  have hlogF : ∀ ev ∈ w4.log,
      ev ∈ (FilesFlush D (D.Join mfsDir "binary_cache".toList) w4).log := by
    intro ev hev
    simp only [FilesFlush]
    exact List.mem_append.mpr (Or.inl hev)
  have hnotnar : ∀ k, ¬ ".nar".toList <:+: k →
      ¬ (cacheFlag [".nar".toList] k = true ∧
        k ∈ filteredFiles files2 [".nar".toList, "nar-cache-info".toList]) :=
    fun k hk hc => hk ((cacheFlag_nar k).mp hc.1)
  rw [hfinal]
  simp only [Run.world]
  have hhcF : (FilesFlush D (D.Join mfsDir "binary_cache".toList) w4).hashCache
      = w4.hashCache := rfl
  rw [hhcF]
  refine ⟨?_, ?_, ?_, ?_, ?_⟩
  · intro f hf hinfo
    have hsel := (hsel1 f).mpr ⟨hf, hinfo⟩
    refine ⟨hlogF _ (hlg4 _ (hup3 f hsel)), ?_⟩
    intro hnot2
    obtain ⟨h, hadd, hw3⟩ := hwr3 f ((cacheFlag_narinfo f).mpr hinfo) hsel
    refine ⟨h, ?_, ?_⟩
    · rw [← hadd]
      exact (AddToIPFS_congr D w w2 _ _ _ f hnode2).symm
    · rw [hfr4 f (fun hc => hnot2 ((hsel2 f).mp hc.2).1), hw3]
  · intro f hf hnar
    have hsel := (hsel2 f).mpr ⟨hf, Or.inl hnar⟩
    refine ⟨hlogF _ (hup4 f hsel), ?_⟩
    obtain ⟨h, hadd, hw4⟩ := hwr4 f ((cacheFlag_nar f).mpr hnar) hsel
    refine ⟨h, ?_, hw4⟩
    rw [← hadd]
    exact (AddToIPFS_congr D w w3 _ _ _ f hnode3).symm
  · intro f hf hinfo hnar
    have hsel := (hsel2 f).mpr ⟨hf, Or.inr hinfo⟩
    refine ⟨hlogF _ (hup4 f hsel), ?_⟩
    rw [hfr4 f (hnotnar f hnar),
      hfr3 f (fun hc => hnar (nar_of_narinfo f ((cacheFlag_narinfo f).mp hc.1))), hcache2]
  · intro k hk
    rw [hfr4 k (fun hc => hk (Or.inr ⟨((hsel2 k).mp hc.2).1, (cacheFlag_nar k).mp hc.1⟩)),
      hfr3 k (fun hc => hk (Or.inl ((hsel1 k).mp hc.2))), hcache2]
  · refine ⟨List.infix_refl _, ?_⟩
    rw [← Contains_iff_occurs]
    decide

/-- Witness of C9 (amended) on the release directory used as a binary cache root: the run
returns, `abc.nar` is written into the hash cache with the hash of its upload, and
`nar-cache-info` is uploaded while its hash cache entry stays as it was. -/
theorem C9_binary_cache_caches_exactly_nar_names_witness :
    Fair inOrder ∧
    releaseWorld.ReadDir (testDeps.Join "rel".toList "binary_cache".toList)
      = some ["abc.narinfo".toList] ∧
    releaseWorld.ReadDir
        (testDeps.Join (testDeps.Join "rel".toList "binary_cache".toList) "nar".toList)
      = some ["abc.nar".toList, "nar-cache-info".toList] ∧
    (addBinaryCache testDeps inOrder "rel".toList "/nixfs".toList releaseWorld).isOk = true ∧
    (∃ h, AddToIPFS testDeps releaseWorld (releaseWorld.hashCache.index "abc.nar".toList)
          (testDeps.Join (testDeps.Join "rel".toList "binary_cache".toList) "nar".toList)
          "abc.nar".toList = .ok ⟨"abc.nar".toList, h⟩ ∧
      (addBinaryCache testDeps inOrder "rel".toList "/nixfs".toList
        releaseWorld).world.hashCache "abc.nar".toList = some h) ∧
    (Event.upload
        (testDeps.Join (testDeps.Join "rel".toList "binary_cache".toList) "nar".toList)
        "nar-cache-info".toList ∈
        (addBinaryCache testDeps inOrder "rel".toList "/nixfs".toList releaseWorld).world.log ∧
      (addBinaryCache testDeps inOrder "rel".toList "/nixfs".toList
        releaseWorld).world.hashCache "nar-cache-info".toList
        = releaseWorld.hashCache "nar-cache-info".toList) :=
  have h := C9_binary_cache_caches_exactly_nar_names testDeps inOrder "rel".toList
    "/nixfs".toList releaseWorld ["abc.narinfo".toList]
    ["abc.nar".toList, "nar-cache-info".toList] (fun l => List.Perm.refl l) rfl rfl
    (by decide)
  ⟨fun l => List.Perm.refl l, rfl, rfl, by decide,
    (h.2.1 "abc.nar".toList (by decide) (by
      rw [← Contains_iff_occurs]
      decide)).2,
    h.2.2.1 "nar-cache-info".toList (by decide) h.2.2.2.2.1 h.2.2.2.2.2⟩

/-- The published branch of `addNixosRelease` (source lines 139-153) when the marker file is
readable and the `FilesMkdir` of the remote parent succeeds. -/
theorem addNixosRelease_published {β : Type} (D : Deps β) (sched : List Pair → List Pair)
    (localDir mfsDir H : GoString) (w : World β)
    (hmarker : w.node (D.Join localDir "ipfs_hash".toList) = Node.file H)
    (hmk : (D.FilesMkdir (D.Dir mfsDir) true w.ipfs).1 = true) :
    addNixosRelease D sched localDir mfsDir w =
      match FilesCp D ("/ipfs/".toList ++ H) mfsDir false
          { w with ipfs := (D.FilesMkdir (D.Dir mfsDir) true w.ipfs).2,
                   log := w.log ++ [Event.FilesMkdir (D.Dir mfsDir) true] } with
      | .error e => .error e
      | .ok w2 => .ok (FilesFlush D mfsDir w2) := by
  unfold addNixosRelease
  simp only [hmarker, FilesMkdir_ok D _ _ w hmk]

theorem addNixosRelease_published_log {β : Type} (D : Deps β) (sched : List Pair → List Pair)
    (localDir mfsDir H : GoString) (w : World β)
    (hmarker : w.node (D.Join localDir "ipfs_hash".toList) = Node.file H)
    (hmk : (D.FilesMkdir (D.Dir mfsDir) true w.ipfs).1 = true) :
    (addNixosRelease D sched localDir mfsDir w).world.log =
      w.log ++ [Event.FilesMkdir (D.Dir mfsDir) true,
        Event.FilesCp ("/ipfs/".toList ++ H) mfsDir false] ++
      (if (addNixosRelease D sched localDir mfsDir w).isOk = true
        then [Event.FilesFlush mfsDir] else []) := by
  rw [addNixosRelease_published D sched localDir mfsDir H w hmarker hmk]
  have hw := FilesCp_world D ("/ipfs/".toList ++ H) mfsDir false
    { w with ipfs := (D.FilesMkdir (D.Dir mfsDir) true w.ipfs).2,
             log := w.log ++ [Event.FilesMkdir (D.Dir mfsDir) true] }
  cases hcp : FilesCp D ("/ipfs/".toList ++ H) mfsDir false
    { w with ipfs := (D.FilesMkdir (D.Dir mfsDir) true w.ipfs).2,
             log := w.log ++ [Event.FilesMkdir (D.Dir mfsDir) true] } with
  | error e =>
    rw [hcp] at hw
    simp only [Run.world] at hw
    simp [Run.world, Run.isOk, hw]
  | ok w2 =>
    rw [hcp] at hw
    simp only [Run.world] at hw
    simp [Run.world, Run.isOk, FilesFlush, hw]

theorem addNixosRelease_published_fatal {β : Type} (D : Deps β)
    (sched : List Pair → List Pair) (localDir mfsDir H : GoString) (w : World β)
    (hmarker : w.node (D.Join localDir "ipfs_hash".toList) = Node.file H)
    (hmk : (D.FilesMkdir (D.Dir mfsDir) true w.ipfs).1 = true)
    (hnok : (addNixosRelease D sched localDir mfsDir w).isOk = false) :
    (addNixosRelease D sched localDir mfsDir w).fatal = some Fatal.FilesCp := by
  rw [addNixosRelease_published D sched localDir mfsDir H w hmarker hmk] at hnok ⊢
  cases hcp : FilesCp D ("/ipfs/".toList ++ H) mfsDir false
    { w with ipfs := (D.FilesMkdir (D.Dir mfsDir) true w.ipfs).2,
             log := w.log ++ [Event.FilesMkdir (D.Dir mfsDir) true] } with
  | error e =>
    simp only [Run.fatal]
    rw [FilesCp_fatal D _ _ _ _ e hcp]
  | ok w2 =>
    rw [hcp] at hnok
    simp [Run.isOk] at hnok

/-- C6: when the marker file `ipfs_hash` of the release directory exists and holds `H`,
and the `FilesMkdir` of the parent of the remote path succeeds, `addNixosRelease` adds to
the log that `FilesMkdir`, then one `FilesCp` from `/ipfs/H` to the remote path with flag
`false`, then the flush if the copy succeeded, and nothing else: exactly one copy-by-hash
call and no upload. -/
theorem C6_marker_short_circuit {β : Type} (D : Deps β) (sched : List Pair → List Pair)
    (localDir mfsDir H : GoString) (w : World β)
    (hmarker : w.node (D.Join localDir "ipfs_hash".toList) = Node.file H)
    (hmk : (D.FilesMkdir (D.Dir mfsDir) true w.ipfs).1 = true) :
    ∃ tail, (addNixosRelease D sched localDir mfsDir w).world.log =
        w.log ++ [Event.FilesMkdir (D.Dir mfsDir) true,
          Event.FilesCp ("/ipfs/".toList ++ H) mfsDir false] ++ tail ∧
      ((addNixosRelease D sched localDir mfsDir w).isOk = true →
        tail = [Event.FilesFlush mfsDir]) ∧
      ((addNixosRelease D sched localDir mfsDir w).isOk = false →
        tail = [] ∧ (addNixosRelease D sched localDir mfsDir w).fatal = some Fatal.FilesCp) := by
  have hlog := addNixosRelease_published_log D sched localDir mfsDir H w hmarker hmk
  cases hr : (addNixosRelease D sched localDir mfsDir w).isOk with
  | true =>
    refine ⟨[Event.FilesFlush mfsDir], ?_, fun _ => rfl, fun h => (by cases h)⟩
    rw [hlog, hr]
    rfl
  | false =>
    refine ⟨[], ?_, fun h => (by cases h), fun _ => ⟨rfl, ?_⟩⟩
    · rw [hlog, hr]
      rfl
    · exact addNixosRelease_published_fatal D sched localDir mfsDir H w hmarker hmk hr

/-- Witness of C6 on a published release directory whose marker holds `QmTree`. -/
theorem C6_marker_short_circuit_witness :
    publishedWorld.node (testDeps.Join "rel".toList "ipfs_hash".toList)
      = Node.file "QmTree".toList ∧
    (testDeps.FilesMkdir (testDeps.Dir "/nixfs/releases/r1".toList) true
      publishedWorld.ipfs).1 = true ∧
    ∃ tail, (addNixosRelease testDeps inOrder "rel".toList "/nixfs/releases/r1".toList
        publishedWorld).world.log =
        publishedWorld.log ++ [Event.FilesMkdir (testDeps.Dir "/nixfs/releases/r1".toList) true,
          Event.FilesCp ("/ipfs/".toList ++ "QmTree".toList) "/nixfs/releases/r1".toList
            false] ++ tail ∧
      ((addNixosRelease testDeps inOrder "rel".toList "/nixfs/releases/r1".toList
          publishedWorld).isOk = true → tail = [Event.FilesFlush "/nixfs/releases/r1".toList]) ∧
      ((addNixosRelease testDeps inOrder "rel".toList "/nixfs/releases/r1".toList
          publishedWorld).isOk = false →
        tail = [] ∧ (addNixosRelease testDeps inOrder "rel".toList
          "/nixfs/releases/r1".toList publishedWorld).fatal = some Fatal.FilesCp) :=
  ⟨rfl, rfl, C6_marker_short_circuit testDeps inOrder "rel".toList
    "/nixfs/releases/r1".toList "QmTree".toList publishedWorld rfl rfl⟩

end NixIPFS
